import Mathlib

/-!
Verification of the LLM-Tools benchmark core: the artifact extractor
(`src/artifact_extractor.py`), the code-execution evaluator
(`src/evaluators/code_executor.py`) and the comparative-judge job runner
(`src/job_runner.py`), shallowly embedded in Lean.

Strings are modelled by Lean `String`/`List Char`; Python dicts that map
filenames to contents are modelled as insertion-ordered association lists
with overwrite-on-existing-key semantics, matching CPython dict behaviour.
Scores are modelled as rationals (Python floats here only ever hold exact
small decimal values: 0, 10, 15, 20, 30, 50, 100 and averages of those).
-/

namespace LLMTools

/-! ### Basic string operations mirroring Python primitives -/

/-- Python `needle in haystack` (substring test) on character lists. -/
def listContains : List Char → List Char → Bool
  | h, n =>
    n.isPrefixOf h ||
      match h with
      | [] => false
      | _ :: t => listContains t n

/-- Python `needle in haystack` on strings. -/
def sContains (hay needle : String) : Bool :=
  listContains hay.data needle.data

/-- Python `str.lower()` (ASCII-relevant part). -/
def lowerS (s : String) : String :=
  ⟨s.data.map Char.toLower⟩

/-- Python `str.strip()` on character lists. -/
def stripL (l : List Char) : List Char :=
  ((l.dropWhile Char.isWhitespace).reverse.dropWhile Char.isWhitespace).reverse

/-- Python `str.strip()` on strings. -/
def stripS (s : String) : String :=
  ⟨stripL s.data⟩

/-- Python `str.endswith(suffix)`. -/
def endsWithS (s suf : String) : Bool :=
  suf.data.isSuffixOf s.data

/-- Character class of the regex `\w` (Python, ASCII-relevant part). -/
def isWordChar (c : Char) : Bool :=
  c.isAlphanum || c = '_'

/-! ### Insertion-ordered dictionaries (CPython `dict` on string keys)

`dinsert` is `d[k] = v`: it updates the value in place when the key is
present (keeping its position) and appends at the end otherwise. -/

def dinsert (k v : String) : List (String × String) → List (String × String)
  | [] => [(k, v)]
  | (k', v') :: t => if k' = k then (k', v) :: t else (k', v') :: dinsert k v t

def dkeys (d : List (String × String)) : List String :=
  d.map Prod.fst

def dlookup (k : String) : List (String × String) → Option String
  | [] => none
  | (k', v') :: t => if k' = k then some v' else dlookup k t

/-! ### Data model (src/schemas.py, fields used by the evaluator) -/

/-- `Question`: the fields read by `CodeExecutor`.  `expected_files` models
`question.metadata.get('expected_files', [])`. -/
structure Question where
  id : String
  expected_output : Option String
  expected_files : List String
  deriving Repr, DecidableEq

/-- `ModelResponse`: the fields read by `CodeExecutor.evaluate`. -/
structure ModelResponse where
  model_name : String
  response_text : String
  error : Option String
  deriving Repr, DecidableEq

/-- `Evaluation`: the fields the claims are about (the `details` map and the
timestamp carry debug metadata only and are not modelled). -/
structure Evaluation where
  question_id : String
  model_name : String
  score : ℚ
  passed : Bool
  evaluation_type : String
  reasoning : String
  deriving Repr, DecidableEq

/-- Python truthiness of an optional string (`if response.error:`). -/
def optTruthy : Option String → Bool
  | none => false
  | some s => !s.isEmpty

/-! ### `CodeExecutor._evaluate_multi_file_artifact`
(src/evaluators/code_executor.py lines 417-522)

The artifact dict's `files` and `entry_point` members are passed in
directly; the on-disk artifact directory plays no role in scoring. -/

/-- The `score_components` list built by `_evaluate_multi_file_artifact`,
in source order: entry-point extension (30), CSS/JS linking (30 or 15),
expected files present (20 or 10), sane file count (20 or 10). -/
def multiFileScoreComponents (q : Question) (files : List (String × String))
    (entry_point : String) : List ℕ :=
  let expected_files := q.expected_files
  let missing_files := expected_files.filter (fun f => !(dkeys files).contains f)
  let c1 : List ℕ := if endsWithS entry_point ".html" then [30] else []
  let c2 : List ℕ :=
    match dlookup entry_point files with
    | none => []
    | some html_content =>
      let css_files := (dkeys files).filter (fun f => endsWithS f ".css")
      let js_files := (dkeys files).filter
        (fun f => endsWithS f ".js" || endsWithS f ".jsx")
      let cssOk := css_files.all (fun f => sContains html_content f)
      let jsOk := js_files.all (fun f => sContains html_content f)
      if cssOk && jsOk then [30] else if cssOk || jsOk then [15] else []
  let c3 : List ℕ :=
    if missing_files.isEmpty then [20]
    else if missing_files.length < expected_files.length then [10]
    else []
  let c4 : List ℕ :=
    if 1 < files.length ∧ files.length ≤ 10 then [20]
    else if 10 < files.length then [10]
    else []
  c1 ++ c2 ++ c3 ++ c4

/-- The `issues` list built alongside the score components (only its
joined rendering enters the failure reasoning). -/
def multiFileIssues (q : Question) (files : List (String × String))
    (entry_point : String) : List String :=
  let expected_files := q.expected_files
  let missing_files := expected_files.filter (fun f => !(dkeys files).contains f)
  let i1 : List String :=
    if endsWithS entry_point ".html" then [] else ["No HTML entry point found"]
  let i2 : List String :=
    match dlookup entry_point files with
    | none => []
    | some html_content =>
      let css_files := (dkeys files).filter (fun f => endsWithS f ".css")
      let js_files := (dkeys files).filter
        (fun f => endsWithS f ".js" || endsWithS f ".jsx")
      (css_files.filter (fun f => !sContains html_content f)).map
          (fun f => "CSS file \x27" ++ f ++ "\x27 not linked in HTML") ++
        (js_files.filter (fun f => !sContains html_content f)).map
          (fun f => "JS file \x27" ++ f ++ "\x27 not linked in HTML")
  let i3 : List String :=
    if missing_files.isEmpty then []
    else if missing_files.length < expected_files.length then []
    else ["Missing expected files: " ++ String.intercalate ", " missing_files]
  let i4 : List String :=
    if 1 < files.length ∧ files.length ≤ 10 then []
    else if 10 < files.length then ["Excessive number of files (>10)"]
    else []
  i1 ++ i2 ++ i3 ++ i4

/-- `CodeExecutor._evaluate_multi_file_artifact`. -/
def evalMultiFileArtifact (q : Question) (resp : ModelResponse)
    (files : List (String × String)) (entry_point : String) : Evaluation :=
  let total_score := (multiFileScoreComponents q files entry_point).sum
  let passed := 70 ≤ total_score
  let issues := multiFileIssues q files entry_point
  { question_id := q.id
    model_name := resp.model_name
    score := (total_score : ℚ)
    passed := passed
    evaluation_type := "code_execution_multi_file"
    reasoning :=
      if passed then
        "Multi-file application validated successfully. " ++
          toString files.length ++ " files generated and properly structured."
      else
        "Multi-file application has issues: " ++
          (if issues.isEmpty then "Score below threshold"
           else String.intercalate "; " issues) }

/-! ### Concrete three-file artifact for the C2 scenario -/

def demoIndexHtml : String :=
  "<html><head><link rel=stylesheet href=styles.css></head>" ++
    "<body><script src=app.js></script></body></html>"

def demoFiles : List (String × String) :=
  [("index.html", demoIndexHtml),
   ("styles.css", "body color red"),
   ("app.js", "console.log(1)")]

def demoQuestion : Question :=
  { id := "q1", expected_output := none, expected_files := [] }

def demoResponse : ModelResponse :=
  { model_name := "m1", response_text := "x", error := none }

/-- C2: the `index.html`/`styles.css`/`app.js` artifact with both assets
referenced in the entry document and no declared expected files scores
exactly 30+30+20+20 = 100 and passes; and for every multi-file artifact,
`passed` holds iff the summed component score is at least 70. -/
theorem multi_file_scoring_c2 :
    ((evalMultiFileArtifact demoQuestion demoResponse demoFiles "index.html").score
        = 100 ∧
      (evalMultiFileArtifact demoQuestion demoResponse demoFiles
          "index.html").passed = true) ∧
    ∀ (q : Question) (r : ModelResponse) (files : List (String × String))
      (entry : String),
      (evalMultiFileArtifact q r files entry).passed = true ↔
        70 ≤ (multiFileScoreComponents q files entry).sum := by
  refine ⟨⟨by decide, by decide⟩, ?_⟩
  intro q r files entry
  simp [evalMultiFileArtifact]

/-! ### Job runner state machine (src/job_runner.py)

`JobRunner` keeps `jobs : Dict[str, ComparativeJudgeJob]` and
`running_tasks : Dict[str, asyncio.Task]`.  The orchestrator operations
are modelled as atomic steps on that state:

* `createJob` — `create_job` (the generated `comp_judge_<timestamp>` id is
  fresh, so insertion never overwrites an existing job);
* `startTask` — the `running_tasks[job_id] = task` bookkeeping of
  `start_job` (the scheduled `run_job` body appears as later steps);
* `runStart`  — the entry of `run_job`: raises if the id is unknown
  (state unchanged), otherwise sets the status to `running`
  unconditionally;
* `runFinish` — the exit of `run_job`: sets `completed` on success and
  `failed` on an uncaught exception; a cancelled task never reaches this
  write (the `CancelledError` is not caught by `except Exception`), which
  is modelled by the `running` guard;
* `cancelJob` — `cancel_job`, which returns a Bool. -/

inductive JobStatus where
  | pending
  | running
  | completed
  | failed
  | cancelled
  deriving Repr, DecidableEq

def JobStatus.isTerminal : JobStatus → Bool
  | .completed => true
  | .failed => true
  | .cancelled => true
  | _ => false

structure RunnerState where
  jobs : List (String × JobStatus)
  tasks : List String
  deriving Repr, DecidableEq

inductive JobOp where
  | createJob (jid : String)
  | startTask (jid : String)
  | runStart (jid : String)
  | runFinish (jid : String) (ok : Bool)
  | cancelJob (jid : String)
  deriving Repr, DecidableEq

def statusLookup (j : String) : List (String × JobStatus) → Option JobStatus
  | [] => none
  | (k, st) :: t => if k = j then some st else statusLookup j t

def setStatus (j : String) (st : JobStatus) :
    List (String × JobStatus) → List (String × JobStatus)
  | [] => []
  | (k, st') :: t => if k = j then (k, st) :: t else (k, st') :: setStatus j st t

/-- `cancel_job`'s return value: the job must exist with status `running`
and have a registered task. -/
def cancelRet (s : RunnerState) (j : String) : Bool :=
  statusLookup j s.jobs = some .running && s.tasks.contains j

def step (s : RunnerState) : JobOp → RunnerState
  | .createJob j =>
    if (statusLookup j s.jobs).isSome then s
    else { s with jobs := s.jobs ++ [(j, .pending)] }
  | .startTask j =>
    if s.tasks.contains j then s else { s with tasks := j :: s.tasks }
  | .runStart j =>
    if (statusLookup j s.jobs).isSome then
      { s with jobs := setStatus j .running s.jobs }
    else s
  | .runFinish j ok =>
    if statusLookup j s.jobs = some .running then
      { s with jobs := setStatus j (if ok then .completed else .failed) s.jobs }
    else s
  | .cancelJob j =>
    if cancelRet s j then { s with jobs := setStatus j .cancelled s.jobs }
    else s

def runOps (s : RunnerState) (ops : List JobOp) : RunnerState :=
  ops.foldl step s

def statusOf (s : RunnerState) (j : String) : Option JobStatus :=
  statusLookup j s.jobs

theorem statusLookup_setStatus_ne (j j' : String) (st : JobStatus)
    (jobs : List (String × JobStatus)) (h : j' ≠ j) :
    statusLookup j (setStatus j' st jobs) = statusLookup j jobs := by
  induction jobs with
  | nil => rfl
  | cons p t ih =>
    obtain ⟨k, st₀⟩ := p
    by_cases hk : k = j'
    · subst hk
      simp [setStatus, statusLookup, h]
    · by_cases hkj : k = j
      · subst hkj
        simp [setStatus, statusLookup, hk]
      · simp [setStatus, statusLookup, hk, hkj, ih]

theorem statusLookup_setStatus_self (j : String) (st st₀ : JobStatus)
    (jobs : List (String × JobStatus)) (h : statusLookup j jobs = some st₀) :
    statusLookup j (setStatus j st jobs) = some st := by
  induction jobs with
  | nil => simp [statusLookup] at h
  | cons p t ih =>
    obtain ⟨k, st₁⟩ := p
    by_cases hk : k = j
    · simp [setStatus, statusLookup, hk]
    · simp [setStatus, statusLookup, hk] at h ⊢
      exact ih h

theorem statusLookup_append_left (j : String) (st : JobStatus)
    (jobs l₂ : List (String × JobStatus)) (h : statusLookup j jobs = some st) :
    statusLookup j (jobs ++ l₂) = some st := by
  induction jobs with
  | nil => simp [statusLookup] at h
  | cons p t ih =>
    obtain ⟨k, st₀⟩ := p
    by_cases hk : k = j
    · simp [statusLookup, hk] at h ⊢
      exact h
    · simp [statusLookup, hk] at h ⊢
      exact ih h

/-- C9: `cancel_job` returns false when the job id is absent or the job is
not running, and whenever it returns true the job's status is `cancelled`
afterwards. -/
theorem cancel_job_c9 (s : RunnerState) (j : String) :
    ((statusOf s j = none ∨ ∀ st, statusOf s j = some st → st ≠ .running) →
      cancelRet s j = false) ∧
    (cancelRet s j = true →
      statusOf (step s (.cancelJob j)) j = some .cancelled) := by
  constructor
  · intro h
    rcases h with h | h
    · simp [cancelRet, statusOf] at h ⊢
      simp [h]
    · simp [cancelRet]
      intro hrun
      exact absurd rfl (h .running (by simpa [statusOf] using hrun))
  · intro h
    have hrun : statusLookup j s.jobs = some .running := by
      simp [cancelRet] at h
      exact h.1
    simp only [step, h, if_true, statusOf]
    exact statusLookup_setStatus_self j _ _ s.jobs hrun

/-- Witness for C9 at a concrete state: a running job with a registered
task is really cancelled, with the theorem discharging the hypothesis. -/
theorem cancel_job_c9_witness :
    statusOf (step ⟨[("a", .running)], ["a"]⟩ (.cancelJob "a")) "a"
      = some .cancelled :=
  (cancel_job_c9 ⟨[("a", .running)], ["a"]⟩ "a").2 (by decide)

/-- C8 counterexample: after `create_job`, `run_job` completing normally,
the job is in the terminal status `completed`; a further invocation of
`run_job` on the same id moves it back to `running`, so a subsequent
operation does change a terminal status. -/
theorem terminal_not_final_c8_cex :
    statusOf
        (runOps ⟨[], []⟩
          [.createJob "a", .startTask "a", .runStart "a", .runFinish "a" true])
        "a" = some .completed ∧
      statusOf
        (runOps ⟨[], []⟩
          [.createJob "a", .startTask "a", .runStart "a", .runFinish "a" true,
            .runStart "a"])
        "a" = some .running := by
  constructor
  · decide
  · decide

/-- C8 amended: a terminal status (`completed`, `failed`, `cancelled`) is
preserved by every orchestrator operation except invoking `run_job` again
on that same job, which unconditionally resets the job to `running`. -/
theorem terminal_preserved_c8 (s : RunnerState) (op : JobOp) (j : String)
    (st : JobStatus) (hst : statusOf s j = some st)
    (hterm : st.isTerminal = true) (hop : op ≠ .runStart j) :
    statusOf (step s op) j = some st := by
  have hne : st ≠ .running := by
    cases st <;> simp_all [JobStatus.isTerminal]
  have hst' : statusLookup j s.jobs = some st := hst
  cases op with
  | createJob j' =>
    simp only [step, statusOf]
    split
    · exact hst'
    · exact statusLookup_append_left j st s.jobs _ hst'
  | startTask j' =>
    simp only [step, statusOf]
    split
    · exact hst'
    · exact hst'
  | runStart j' =>
    have hj : j' ≠ j := fun h => hop (by rw [h])
    simp only [step, statusOf]
    split
    · rw [statusLookup_setStatus_ne _ _ _ _ hj]
      exact hst'
    · exact hst'
  | runFinish j' ok =>
    simp only [step, statusOf]
    split
    · rename_i hrun
      have hj : j' ≠ j := by
        intro h
        subst h
        rw [hst'] at hrun
        exact hne (Option.some.inj hrun)
      rw [statusLookup_setStatus_ne _ _ _ _ hj]
      exact hst'
    · exact hst'
  | cancelJob j' =>
    simp only [step, statusOf]
    split
    · rename_i hc
      have hrun : statusLookup j' s.jobs = some .running := by
        simp [cancelRet] at hc
        exact hc.1
      have hj : j' ≠ j := by
        intro h
        subst h
        rw [hst'] at hrun
        exact hne (Option.some.inj hrun)
      rw [statusLookup_setStatus_ne _ _ _ _ hj]
      exact hst'
    · exact hst'

/-- Witness for the amended C8 theorem: a concrete completed job is
untouched by a `cancel_job` call. -/
theorem terminal_preserved_c8_witness :
    statusOf (step ⟨[("a", .completed)], ["a"]⟩ (.cancelJob "a")) "a"
      = some .completed :=
  terminal_preserved_c8 ⟨[("a", .completed)], ["a"]⟩ (.cancelJob "a") "a"
    .completed (by decide) (by decide) (by decide)

/-! ### `JobRunner._calculate_leaderboard` (src/job_runner.py lines 392-432)

`all_results` maps question id → model name → result dict; each inner
result carries at least `score` and (optionally) `passed`.  `model_scores`
is an insertion-ordered dict keyed by model name. -/

/-- One per-model result inside a question's result map (`result['score']`,
`result.get('passed', False)`). -/
structure QResult where
  score : ℚ
  passed : Bool
  deriving Repr, DecidableEq

/-- The per-model accumulator inside `model_scores`. -/
structure ModelAgg where
  scores : List ℚ
  passed_count : ℕ
  deriving Repr, DecidableEq

/-- A leaderboard entry. -/
structure LBEntry where
  model_name : String
  average_score : ℚ
  total_questions : ℕ
  passed_count : ℕ
  pass_rate : ℚ
  deriving Repr, DecidableEq

/-- One iteration of the aggregation loop: ensure the model has an entry,
append the score, bump the passed count. -/
def addResult (m : String) (r : QResult) :
    List (String × ModelAgg) → List (String × ModelAgg)
  | [] => [(m, ⟨[r.score], if r.passed then 1 else 0⟩)]
  | (k, a) :: t =>
    if k = m then
      (k, ⟨a.scores ++ [r.score], a.passed_count + if r.passed then 1 else 0⟩)
        :: t
    else (k, a) :: addResult m r t

def innerFold (qrs : List (String × QResult)) (acc : List (String × ModelAgg)) :
    List (String × ModelAgg) :=
  qrs.foldl (fun a p => addResult p.1 p.2 a) acc

/-- The `model_scores` dict after both aggregation loops. -/
def aggregateScores (all : List (String × List (String × QResult))) :
    List (String × ModelAgg) :=
  all.foldl (fun acc q => innerFold q.2 acc) []

/-- Build one leaderboard entry from a `model_scores` item (including the
`if scores else 0` guards of the source). -/
def entryFor (m : String) (a : ModelAgg) : LBEntry :=
  { model_name := m
    average_score :=
      if a.scores.isEmpty then 0 else a.scores.sum / a.scores.length
    total_questions := a.scores.length
    passed_count := a.passed_count
    pass_rate :=
      if a.scores.isEmpty then 0 else (a.passed_count : ℚ) / a.scores.length }

/-- The sort key relation of `leaderboard.sort(key=..., reverse=True)`:
non-increasing average score. -/
def lbRel (a b : LBEntry) : Prop :=
  b.average_score ≤ a.average_score

instance : DecidableRel lbRel := fun a b =>
  inferInstanceAs (Decidable (b.average_score ≤ a.average_score))

instance : IsTotal LBEntry lbRel :=
  ⟨fun a b => le_total b.average_score a.average_score⟩

instance : IsTrans LBEntry lbRel :=
  ⟨fun _ _ _ hab hbc => le_trans hbc hab⟩

/-- `_calculate_leaderboard` (Python's `list.sort` is stable, as is
`List.insertionSort`). -/
def calculateLeaderboard (all : List (String × List (String × QResult))) :
    List LBEntry :=
  List.insertionSort lbRel
    ((aggregateScores all).map (fun p => entryFor p.1 p.2))

def aggKeys (acc : List (String × ModelAgg)) : List String :=
  acc.map Prod.fst

theorem aggKeys_addResult (m : String) (r : QResult)
    (acc : List (String × ModelAgg)) :
    aggKeys (addResult m r acc) =
      if m ∈ aggKeys acc then aggKeys acc else aggKeys acc ++ [m] := by
  induction acc with
  | nil => simp [addResult, aggKeys]
  | cons p t ih =>
    obtain ⟨k, a⟩ := p
    by_cases hk : k = m
    · subst hk
      simp [addResult, aggKeys]
    · have h1 : aggKeys (addResult m r ((k, a) :: t)) =
          k :: aggKeys (addResult m r t) := by
        simp [addResult, hk, aggKeys]
      by_cases hm : m ∈ aggKeys t
      · have hm' : m ∈ aggKeys ((k, a) :: t) := by
          simp only [aggKeys, List.map_cons, List.mem_cons]
          exact Or.inr hm
        rw [h1, ih, if_pos hm, if_pos hm']
        simp [aggKeys]
      · have hm' : m ∉ aggKeys ((k, a) :: t) := by
          simp only [aggKeys, List.map_cons, List.mem_cons]
          rintro (h | h)
          · exact hk h.symm
          · exact hm h
        rw [h1, ih, if_neg hm, if_neg hm']
        simp [aggKeys]

theorem mem_aggKeys_addResult (m m' : String) (r : QResult)
    (acc : List (String × ModelAgg)) :
    m' ∈ aggKeys (addResult m r acc) ↔ m' ∈ aggKeys acc ∨ m' = m := by
  rw [aggKeys_addResult]
  by_cases hm : m ∈ aggKeys acc
  · simp [hm]
    intro he
    subst he
    exact hm
  · simp [hm]

theorem nodup_aggKeys_addResult (m : String) (r : QResult)
    (acc : List (String × ModelAgg)) (h : (aggKeys acc).Nodup) :
    (aggKeys (addResult m r acc)).Nodup := by
  rw [aggKeys_addResult]
  by_cases hm : m ∈ aggKeys acc
  · simpa [hm] using h
  · rw [if_neg hm]
    simp [List.nodup_append, h, hm]

/-- Every entry of `model_scores` has a nonempty score list with at least
as many scores as passes. -/
def GoodAgg (acc : List (String × ModelAgg)) : Prop :=
  ∀ p ∈ acc, p.2.scores ≠ [] ∧ p.2.passed_count ≤ p.2.scores.length

theorem goodAgg_addResult (m : String) (r : QResult)
    (acc : List (String × ModelAgg)) (h : GoodAgg acc) :
    GoodAgg (addResult m r acc) := by
  induction acc with
  | nil =>
    intro p hp
    simp [addResult] at hp
    subst hp
    constructor
    · simp
    · by_cases hr : r.passed <;> simp [hr]
  | cons q t ih =>
    obtain ⟨k, a⟩ := q
    have hka := h (k, a) (by simp)
    have ht : GoodAgg t := fun p hp => h p (by simp [hp])
    by_cases hk : k = m
    · subst hk
      intro p hp
      simp [addResult] at hp
      rcases hp with hp | hp
      · subst hp
        have h2 : a.passed_count ≤ a.scores.length := hka.2
        refine ⟨by simp, ?_⟩
        simp only [List.length_append, List.length_singleton]
        by_cases hr : r.passed <;> simp [hr] <;> omega
      · exact ht p hp
    · intro p hp
      simp [addResult, hk] at hp
      rcases hp with hp | hp
      · subst hp
        exact hka
      · exact ih ht p hp

theorem mem_aggKeys_innerFold (qrs : List (String × QResult))
    (acc : List (String × ModelAgg)) (m' : String) :
    m' ∈ aggKeys (innerFold qrs acc) ↔
      m' ∈ aggKeys acc ∨ m' ∈ qrs.map Prod.fst := by
  induction qrs generalizing acc with
  | nil => simp [innerFold]
  | cons p t ih =>
    simp only [innerFold, List.foldl_cons] at ih ⊢
    rw [ih (addResult p.1 p.2 acc), mem_aggKeys_addResult]
    simp
    tauto

theorem nodup_aggKeys_innerFold (qrs : List (String × QResult))
    (acc : List (String × ModelAgg)) (h : (aggKeys acc).Nodup) :
    (aggKeys (innerFold qrs acc)).Nodup := by
  induction qrs generalizing acc with
  | nil => simpa [innerFold]
  | cons p t ih =>
    simp only [innerFold, List.foldl_cons]
    exact ih _ (nodup_aggKeys_addResult _ _ _ h)

theorem goodAgg_innerFold (qrs : List (String × QResult))
    (acc : List (String × ModelAgg)) (h : GoodAgg acc) :
    GoodAgg (innerFold qrs acc) := by
  induction qrs generalizing acc with
  | nil => simpa [innerFold]
  | cons p t ih =>
    simp only [innerFold, List.foldl_cons]
    exact ih _ (goodAgg_addResult _ _ _ h)

theorem mem_aggKeys_aggregate_aux
    (all : List (String × List (String × QResult)))
    (acc : List (String × ModelAgg)) (m' : String) :
    m' ∈ aggKeys (all.foldl (fun a q => innerFold q.2 a) acc) ↔
      m' ∈ aggKeys acc ∨ ∃ q ∈ all, m' ∈ q.2.map Prod.fst := by
  induction all generalizing acc with
  | nil => simp
  | cons q t ih =>
    simp only [List.foldl_cons]
    rw [ih, mem_aggKeys_innerFold]
    simp
    tauto

theorem nodup_aggKeys_aggregate_aux
    (all : List (String × List (String × QResult)))
    (acc : List (String × ModelAgg)) (h : (aggKeys acc).Nodup) :
    (aggKeys (all.foldl (fun a q => innerFold q.2 a) acc)).Nodup := by
  induction all generalizing acc with
  | nil => simpa
  | cons q t ih =>
    simp only [List.foldl_cons]
    exact ih _ (nodup_aggKeys_innerFold _ _ h)

theorem goodAgg_aggregate_aux
    (all : List (String × List (String × QResult)))
    (acc : List (String × ModelAgg)) (h : GoodAgg acc) :
    GoodAgg (all.foldl (fun a q => innerFold q.2 a) acc) := by
  induction all generalizing acc with
  | nil => simpa
  | cons q t ih =>
    simp only [List.foldl_cons]
    exact ih _ (goodAgg_innerFold _ _ h)

theorem lb_names_perm (all : List (String × List (String × QResult))) :
    List.Perm ((calculateLeaderboard all).map LBEntry.model_name)
      (aggKeys (aggregateScores all)) := by
  have h1 : List.Perm (calculateLeaderboard all)
      ((aggregateScores all).map (fun p => entryFor p.1 p.2)) :=
    List.perm_insertionSort _ _
  have h2 := h1.map LBEntry.model_name
  refine h2.trans ?_
  rw [List.map_map]
  have : (LBEntry.model_name ∘ fun p : String × ModelAgg => entryFor p.1 p.2)
      = Prod.fst := by
    funext p
    rfl
  rw [this]
  exact List.Perm.refl _

/-- C7: the leaderboard has exactly one entry per model occurring in the
results (no duplicates, nothing missing); every entry divides by its own
positive scored-question count, so no division by zero occurs, with
`pass_rate = passed_count / total_questions` and `passed_count ≤
total_questions`; the guard in the entry constructor sends an (unreachable)
empty score list to average 0 and pass rate 0 instead of dividing; and the
entries are sorted by non-increasing average score. -/
theorem leaderboard_c7 (all : List (String × List (String × QResult))) :
    ((calculateLeaderboard all).map LBEntry.model_name).Nodup ∧
    (∀ m, m ∈ (calculateLeaderboard all).map LBEntry.model_name ↔
      ∃ q ∈ all, m ∈ q.2.map Prod.fst) ∧
    (∀ e ∈ calculateLeaderboard all,
      0 < e.total_questions ∧
      e.pass_rate = (e.passed_count : ℚ) / (e.total_questions : ℚ) ∧
      e.passed_count ≤ e.total_questions) ∧
    (∀ m pc, (entryFor m ⟨[], pc⟩).average_score = 0 ∧
      (entryFor m ⟨[], pc⟩).pass_rate = 0) ∧
    (calculateLeaderboard all).Sorted lbRel := by
  have hperm := lb_names_perm all
  refine ⟨?_, ?_, ?_, ?_, ?_⟩
  · rw [hperm.nodup_iff]
    exact nodup_aggKeys_aggregate_aux all [] (by simp [aggKeys])
  · intro m
    rw [hperm.mem_iff]
    simp only [aggregateScores]
    rw [mem_aggKeys_aggregate_aux]
    simp [aggKeys]
  · intro e he
    have hgood : GoodAgg (aggregateScores all) :=
      goodAgg_aggregate_aux all [] (by intro p hp; simp at hp)
    have he' : e ∈ (aggregateScores all).map (fun p => entryFor p.1 p.2) :=
      (List.perm_insertionSort lbRel _).mem_iff.mp he
    rcases List.mem_map.mp he' with ⟨p, hp, hpe⟩
    have hg := hgood p hp
    have hne : ¬p.2.scores.isEmpty := by
      simpa using hg.1
    subst hpe
    refine ⟨?_, ?_, ?_⟩
    · simp only [entryFor]
      have := hg.1
      cases h : p.2.scores with
      | nil => exact absurd h this
      | cons a t => simp [h]
    · simp [entryFor, hne]
    · simpa [entryFor] using hg.2
  · intro m pc
    constructor <;> simp [entryFor]
  · exact List.sorted_insertionSort lbRel _

/-- Witness for C7 at a concrete one-question, one-model result set. -/
theorem leaderboard_c7_witness :
    0 < (entryFor "m1" ⟨[100], 1⟩).total_questions ∧
      (entryFor "m1" ⟨[100], 1⟩).pass_rate =
        ((entryFor "m1" ⟨[100], 1⟩).passed_count : ℚ) /
          ((entryFor "m1" ⟨[100], 1⟩).total_questions : ℚ) ∧
      (entryFor "m1" ⟨[100], 1⟩).passed_count ≤
        (entryFor "m1" ⟨[100], 1⟩).total_questions :=
  (leaderboard_c7 [("q1", [("m1", ⟨100, true⟩)])]).2.2.1
    (entryFor "m1" ⟨[100], 1⟩)
    (by
      have h : calculateLeaderboard [("q1", [("m1", ⟨100, true⟩)])]
          = [entryFor "m1" ⟨[100], 1⟩] := rfl
      rw [h]
      exact List.mem_singleton_self _)

/-! ### `CodeExecutor._execute_python` / `_execute_javascript`
(src/evaluators/code_executor.py lines 301-398)

The filesystem is modelled as the list of existing temp directories.
`tempfile.mkdtemp` yields a fresh name (hypothesis `fresh ∉ fs`);
`shutil.rmtree` in the `finally` block removes it (its normal semantics —
the `except: pass` around it is defensive only).  Which exit path the
subprocess machinery takes is an input:

* `completed rc out err` — `subprocess.run` returned (exit code `rc`);
* `timeout`              — `subprocess.TimeoutExpired`;
* `exc msg`              — any other exception after the temp directory
                           was created (e.g. the file write failed);
* `earlyExc msg`         — an exception before/at `mkdtemp`, so no
                           directory was ever created. -/

inductive ExecOutcome where
  | completed (rc : ℤ) (out err : String)
  | timeout
  | exc (msg : String)
  | earlyExc (msg : String)
  deriving Repr, DecidableEq

/-- `_execute_python`: returns `(success, output, error)` and the final
filesystem. -/
def executePython (timeoutSecs : ℕ) (fs : List String) (fresh : String)
    (o : ExecOutcome) : (Bool × String × String) × List String :=
  match o with
  | .earlyExc msg => ((false, "", msg), fs)
  | .completed rc out err =>
    let fs1 := fresh :: fs
    ((rc = 0, out, err), fs1.erase fresh)
  | .timeout =>
    let fs1 := fresh :: fs
    ((false, "",
      "Execution timed out after " ++ toString timeoutSecs ++ " seconds"),
      fs1.erase fresh)
  | .exc msg =>
    let fs1 := fresh :: fs
    ((false, "", msg), fs1.erase fresh)

/-- `_execute_javascript`: identical discipline, but the `node --version`
probe runs before `mkdtemp`; if Node.js is missing the `FileNotFoundError`
is reported without any directory having been created. -/
def executeJavascript (timeoutSecs : ℕ) (fs : List String) (fresh : String)
    (nodeAvailable : Bool) (o : ExecOutcome) :
    (Bool × String × String) × List String :=
  if !nodeAvailable then
    ((false, "", "Node.js is not installed or not in PATH"), fs)
  else
    match o with
    | .earlyExc msg => ((false, "", msg), fs)
    | .completed rc out err =>
      let fs1 := fresh :: fs
      ((rc = 0, out, err), fs1.erase fresh)
    | .timeout =>
      let fs1 := fresh :: fs
      ((false, "",
        "Execution timed out after " ++ toString timeoutSecs ++ " seconds"),
        fs1.erase fresh)
    | .exc msg =>
      let fs1 := fresh :: fs
      ((false, "", msg), fs1.erase fresh)

/-- C1: for every interpreted-language execution (Python and JavaScript)
and every exit path — success, nonzero exit, timeout, interpreter missing,
other exception — the temp directory of that execution does not exist
when the call returns, and the filesystem is exactly as before. -/
theorem temp_dir_cleanup_c1 (timeoutSecs : ℕ) (fs : List String)
    (fresh : String) (nodeAvailable : Bool) (o : ExecOutcome)
    (hfresh : fresh ∉ fs) :
    (executePython timeoutSecs fs fresh o).2 = fs ∧
      fresh ∉ (executePython timeoutSecs fs fresh o).2 ∧
      (executeJavascript timeoutSecs fs fresh nodeAvailable o).2 = fs ∧
      fresh ∉ (executeJavascript timeoutSecs fs fresh nodeAvailable o).2 := by
  have herase : (fresh :: fs).erase fresh = fs := by
    simp [List.erase_cons_head]
  cases o with
  | completed rc out err =>
    cases nodeAvailable <;>
      simp [executePython, executeJavascript, herase, hfresh]
  | timeout =>
    cases nodeAvailable <;>
      simp [executePython, executeJavascript, herase, hfresh]
  | exc msg =>
    cases nodeAvailable <;>
      simp [executePython, executeJavascript, herase, hfresh]
  | earlyExc msg =>
    cases nodeAvailable <;>
      simp [executePython, executeJavascript, herase, hfresh]

/-- Witness for C1: a concrete timeout run starting from a filesystem with
one other artifact directory. -/
theorem temp_dir_cleanup_c1_witness :
    (executePython 10 ["other"] "benchmark_exec_x" .timeout).2 = ["other"] ∧
      "benchmark_exec_x" ∉
        (executePython 10 ["other"] "benchmark_exec_x" .timeout).2 ∧
      (executeJavascript 10 ["other"] "benchmark_exec_x" true .timeout).2
          = ["other"] ∧
      "benchmark_exec_x" ∉
        (executeJavascript 10 ["other"] "benchmark_exec_x" true .timeout).2 :=
  temp_dir_cleanup_c1 10 ["other"] "benchmark_exec_x" true .timeout
    (by decide)

/-! ### Regex scanners

Each `re.findall(pattern, text, re.DOTALL [| re.IGNORECASE])` call of the
source is embedded as a left-to-right, non-overlapping scan
(`scanAll`) with a bespoke matcher implementing that pattern's exact
backtracking semantics (greedy `\s*`/`\s+`/`[^\n]+` with backtracking,
non-greedy `(.*?)` and `([^\n]+?)`, ordered alternation). -/

def ticksPre (l : List Char) : Bool :=
  ['`', '`', '`'].isPrefixOf l

/-- The non-greedy `(.*?)` followed by a literal closing fence: splits at
the earliest occurrence of three backticks. -/
def findClose : List Char → Option (List Char × List Char)
  | [] => none
  | c :: t =>
    if ticksPre (c :: t) then some ([], (c :: t).drop 3)
    else
      match findClose t with
      | some (code, rest) => some (c :: code, rest)
      | none => none

/-- `re.findall`: try the matcher at each position, left to right; on a
match, continue after its end (non-overlapping). -/
def scanAux (m : List Char → Option (α × List Char)) :
    ℕ → List Char → List α
  | 0, _ => []
  | _ + 1, [] => []
  | fuel + 1, c :: t =>
    match m (c :: t) with
    | some (a, rest) => a :: scanAux m fuel rest
    | none => scanAux m fuel t

def scanAll (m : List Char → Option (α × List Char)) (l : List Char) :
    List α :=
  scanAux m l.length l

/-- Split a whitespace run at its last newline: `\s*\n` consumes the run
up to and including its last `\n` (greedy `\s*`, then backtracking to the
newline); the suffix after it stays in the following capture group. -/
def splitLastNL : List Char → Option (List Char × List Char)
  | [] => none
  | c :: t =>
    match splitLastNL t with
    | some (pre, suf) => some (c :: pre, suf)
    | none => if c = '\n' then some ([c], t) else none

/-- `(?:\w+)?\n`: optional word run, then a mandatory newline. -/
def langAndNL (l : List Char) : Option (List Char × List Char) :=
  let lang := l.takeWhile isWordChar
  match l.drop lang.length with
  | '\n' :: rest => some (lang, rest)
  | _ => none

/-- Pattern 1 of `_extract_code`: ` ```(\w+)?\s*\n(.*?)``` `. -/
def matchFence1 (l : List Char) : Option ((String × String) × List Char) :=
  if ticksPre l then
    let l1 := l.drop 3
    let lang := l1.takeWhile isWordChar
    let l2 := l1.drop lang.length
    match splitLastNL (l2.takeWhile Char.isWhitespace) with
    | some (_, suf) =>
      match findClose (suf ++ l2.dropWhile Char.isWhitespace) with
      | some (code, rest) => some ((⟨lang⟩, ⟨code⟩), rest)
      | none => none
    | none => none
  else none

/-- Pattern 2 of `_extract_code`: ` ```(\w+)?\s*(.*?)``` `. -/
def matchFence2 (l : List Char) : Option ((String × String) × List Char) :=
  if ticksPre l then
    let l1 := l.drop 3
    let lang := l1.takeWhile isWordChar
    let l2 := l1.drop lang.length
    match findClose (l2.dropWhile Char.isWhitespace) with
    | some (code, rest) => some ((⟨lang⟩, ⟨code⟩), rest)
    | none => none
  else none

/-- The fenced-block pattern of `_infer_files_from_blocks`:
` ```(\w+)?\n(.*?)``` `. -/
def matchFenceNL (l : List Char) : Option ((String × String) × List Char) :=
  if ticksPre l then
    match langAndNL (l.drop 3) with
    | some (lang, rest) =>
      match findClose rest with
      | some (code, rest') => some ((⟨lang⟩, ⟨code⟩), rest')
      | none => none
    | none => none
  else none

/-- ` \s*```(?:\w+)?\n(.*?)``` ` (tail of the comment-marker patterns). -/
def fenceTail (t : List Char) : Option (List Char × List Char) :=
  let l1 := t.dropWhile Char.isWhitespace
  if ticksPre l1 then
    match langAndNL (l1.drop 3) with
    | some (_, rest) => findClose rest
    | none => none
  else none

/-- ` \s*\n\s*```(?:\w+)?\n(.*?)``` `: the maximal whitespace run must
contain a newline, then a fence follows. -/
def tailNL (t : List Char) : Option (List Char × List Char) :=
  if (t.takeWhile Char.isWhitespace).contains '\n' then fenceTail t
  else none

/-- Non-greedy `([^\n]+?)` with full-continuation backtracking: grow the
group one non-newline character at a time, first full match of the
continuation wins. -/
def ngSplit (cont : List Char → Option (List Char × List Char)) :
    List Char → Option (List Char × List Char × List Char)
  | [] => none
  | c :: t =>
    if c = '\n' then none
    else
      match cont t with
      | some (code, rest) => some ([c], code, rest)
      | none =>
        match ngSplit cont t with
        | some (g, code, rest) => some (c :: g, code, rest)
        | none => none

/-- Greedy `\s*` immediately before a non-greedy group: the quantifier
first consumes as much whitespace as it can and, on failure of the rest
of the pattern, gives characters back one at a time.  `wsBack cont l k`
tries the group (with continuation `cont`) after `k` whitespace
characters, then after `k - 1`, ..., down to `0`; the first full match
wins, so the whitespace-only-filename case (`\s*` backed off to let the
group capture a whitespace character) is reached exactly as in the
engine. -/
def wsBack (cont : List Char → Option (List Char × List Char))
    (l : List Char) : ℕ → Option (List Char × List Char × List Char)
  | 0 => ngSplit cont l
  | k + 1 =>
    match ngSplit cont (l.drop (k + 1)) with
    | some r => some r
    | none => wsBack cont l k

/-- Case-insensitive literal prefix (the pattern literal is lowercase). -/
def ciPre (pat : List Char) (l : List Char) : Bool :=
  decide ((l.take pat.length).map Char.toLower = pat)

/-- `(?:filename|file)` under `re.IGNORECASE` (ordered alternation; the
two branches never both lead to a full match). -/
def kwChop (l : List Char) : Option (List Char) :=
  if ciPre "filename".data l then some (l.drop 8)
  else if ciPre "file".data l then some (l.drop 4)
  else none

/-- Format 1 of `_extract_files_from_response`:
` ```(\w+):([^\n]+)\n(.*?)``` ` (the language capture is unused). -/
def matchA1 (l : List Char) : Option ((String × String) × List Char) :=
  if ticksPre l then
    let l1 := l.drop 3
    let lang := l1.takeWhile isWordChar
    if lang.isEmpty then none
    else
      match l1.drop lang.length with
      | ':' :: l2 =>
        let fn := l2.takeWhile (fun c => c ≠ '\n')
        if fn.isEmpty then none
        else
          match l2.drop fn.length with
          | '\n' :: l3 =>
            match findClose l3 with
            | some (code, rest) => some ((⟨fn⟩, ⟨code⟩), rest)
            | none => none
          | _ => none
      | _ => none
  else none

/-- Format 2:
` <!--\s*(?:filename|file):\s*([^\n]+?)\s*-->\s*```(?:\w+)?\n(.*?)``` `. -/
def matchA2 (l : List Char) : Option ((String × String) × List Char) :=
  if "<!--".data.isPrefixOf l then
    match kwChop ((l.drop 4).dropWhile Char.isWhitespace) with
    | some l2 =>
      match l2 with
      | ':' :: l3 =>
        match wsBack
            (fun t =>
              let t2 := t.dropWhile Char.isWhitespace
              if "-->".data.isPrefixOf t2 then fenceTail (t2.drop 3)
              else none)
            l3 (l3.takeWhile Char.isWhitespace).length with
        | some (fn, code, rest) => some ((⟨fn⟩, ⟨code⟩), rest)
        | none => none
      | _ => none
    | none => none
  else none

/-- `(?://|#|/\*)` (ordered alternation over the three comment markers). -/
def markerChop (l : List Char) : Option (List Char) :=
  if "//".data.isPrefixOf l then some (l.drop 2)
  else if "#".data.isPrefixOf l then some (l.drop 1)
  else if "/*".data.isPrefixOf l then some (l.drop 2)
  else none

/-- `(?:\*/|)\s*\n\s*```(?:\w+)?\n(.*?)``` `: optional close-comment
first, then without it. -/
def contA3 (t : List Char) : Option (List Char × List Char) :=
  match (if "*/".data.isPrefixOf t then tailNL (t.drop 2) else none) with
  | some r => some r
  | none => tailNL t

/-- Format 3:
` (?://|#|/\*)\s*(?:filename|file):\s*([^\n]+?)(?:\*/|)\s*\n\s*```(?:\w+)?\n(.*?)``` `. -/
def matchA3 (l : List Char) : Option ((String × String) × List Char) :=
  match markerChop l with
  | some l1 =>
    match kwChop (l1.dropWhile Char.isWhitespace) with
    | some l2 =>
      match l2 with
      | ':' :: l3 =>
        match wsBack contA3 l3 (l3.takeWhile Char.isWhitespace).length with
        | some (fn, code, rest) => some ((⟨fn⟩, ⟨code⟩), rest)
        | none => none
      | _ => none
    | none => none
  | none => none

/-- The extension alternation of format 4, in pattern order. -/
def extAlts : List (List Char) :=
  ["html".data, "js".data, "css".data, "json".data, "jsx".data, "tsx".data,
    "ts".data]

/-- With the dot fixed at position `d`, try each extension (ordered
alternation, each with the full tail as continuation). -/
def tryExtsAt (l2 : List Char) (d : ℕ) :
    List (List Char) → Option ((List Char × List Char) × List Char)
  | [] => none
  | ext :: rest =>
    if ciPre ext (l2.drop (d + 1)) then
      match tailNL (l2.drop (d + 1 + ext.length)) with
      | some (code, rest') =>
        some ((l2.take (d + 1 + ext.length), code), rest')
      | none => tryExtsAt l2 d rest
    else tryExtsAt l2 d rest

/-- Greedy `[^\n]+\.`: try dot positions from the rightmost inside the
non-newline run down to position 1. -/
def tryDots (l2 nn : List Char) :
    ℕ → Option ((List Char × List Char) × List Char)
  | 0 => none
  | m + 1 =>
    match (if nn.getD (m + 1) ' ' = '.' then tryExtsAt l2 (m + 1) extAlts
           else none) with
    | some r => some r
    | none => tryDots l2 nn m

/-- Greedy `\s+`: try consuming the whole whitespace run first, then give
back one character at a time (the group `[^\n]+` may absorb spaces). -/
def trySpaces (l1 : List Char) :
    ℕ → Option ((List Char × List Char) × List Char)
  | 0 => none
  | s + 1 =>
    let l2 := l1.drop (s + 1)
    let nn := l2.takeWhile (fun c => c ≠ '\n')
    match tryDots l2 nn nn.length with
    | some r => some r
    | none => trySpaces l1 s

/-- Format 4:
` #{1,6}\s+([^\n]+\.(?:html|js|css|json|jsx|tsx|ts))\s*\n\s*```(?:\w+)?\n(.*?)``` `. -/
def matchA4 (l : List Char) : Option ((String × String) × List Char) :=
  let hs := l.takeWhile (fun c => c = '#')
  if 1 ≤ hs.length ∧ hs.length ≤ 6 then
    let l1 := l.drop hs.length
    let ws := l1.takeWhile Char.isWhitespace
    if ws.isEmpty then none
    else
      match trySpaces l1 ws.length with
      | some ((fn, code), rest) => some ((⟨fn⟩, ⟨code⟩), rest)
      | none => none
  else none

/-! ### `ArtifactExtractor` (src/artifact_extractor.py) -/

/-- The `(filename, code)` pairs collected by the four formats of
`_extract_files_from_response`, in assignment order, already stripped. -/
def rawHints (text : String) : List (String × String) :=
  (scanAll matchA1 text.data ++ scanAll matchA2 text.data ++
      scanAll matchA3 text.data ++ scanAll matchA4 text.data).map
    (fun p => (stripS p.1, stripS p.2))

/-- Default filenames of `_infer_files_from_blocks`. -/
def htmlName (n : ℕ) : String :=
  if n = 0 then "index.html" else "page" ++ Nat.repr n ++ ".html"

def cssName (n : ℕ) : String :=
  if n = 0 then "styles.css" else "styles" ++ Nat.repr n ++ ".css"

def moduleName (n : ℕ) : String :=
  if n = 0 then "app.js" else "module" ++ Nat.repr n ++ ".js"

def scriptName (n : ℕ) : String :=
  if n = 0 then "script.js" else "script" ++ Nat.repr n ++ ".js"

def tsName (n : ℕ) : String :=
  "app" ++ (if 0 < n then Nat.repr n else "") ++ ".ts"

/-- The classification loop of `_infer_files_from_blocks`, producing the
`(filename, content)` assignments in order, with the per-kind counters
`html_count`, `css_count`, `js_count` threaded through. -/
def inferAssigns : ℕ × ℕ × ℕ → List (String × String) → List (String × String)
  | _, [] => []
  | (hc, cc, jc), (lang₀, code₀) :: t =>
    let lang := lowerS lang₀
    let code := stripS code₀
    if lang = "html" ∨ lang = "htm" ∨ sContains (lowerS code) "<html"
        ∨ sContains code "<!DOCTYPE" then
      (htmlName hc, code) :: inferAssigns (hc + 1, cc, jc) t
    else if lang = "css" then
      (cssName cc, code) :: inferAssigns (hc, cc + 1, jc) t
    else if lang = "javascript" ∨ lang = "js" ∨ lang = "jsx" then
      ((if sContains code "export " ∨ sContains code "import " then
          moduleName jc
        else scriptName jc), code) :: inferAssigns (hc, cc, jc + 1) t
    else if lang = "typescript" ∨ lang = "ts" ∨ lang = "tsx" then
      (tsName jc, code) :: inferAssigns (hc, cc, jc + 1) t
    else if lang = "json" then
      ("config.json", code) :: inferAssigns (hc, cc, jc) t
    else inferAssigns (hc, cc, jc) t

/-- `_infer_files_from_blocks`. -/
def inferFilesFromBlocks (text : String) : List (String × String) :=
  (inferAssigns (0, 0, 0) (scanAll matchFenceNL text.data)).foldl
    (fun fs p => dinsert p.1 p.2 fs) []

/-- `_extract_files_from_response`: the four formats populate the dict in
order; the inference fallback runs only when none of them produced a
file. -/
def extractFilesFromResponse (text : String) : List (String × String) :=
  let files := (rawHints text).foldl (fun fs p => dinsert p.1 p.2 fs) []
  if files.isEmpty then inferFilesFromBlocks text else files

/-- `_determine_entry_point`. -/
def determineEntryPoint (files : List (String × String)) : String :=
  if (dkeys files).contains "index.html" then "index.html"
  else
    match (dkeys files).filter (fun f => endsWithS f ".html") with
    | f :: _ => f
    | [] => (dkeys files).headD ""

/-- The artifact dict produced by `extract_multi_file_artifact` (the
materialized temp directory is not modelled; scoring never reads it). -/
structure MFArtifact where
  isMulti : Bool
  entry_point : String
  files : List (String × String)
  deriving Repr, DecidableEq

/-- `extract_multi_file_artifact`. -/
def extractMultiFileArtifact (text : String) : Option MFArtifact :=
  let files := extractFilesFromResponse text
  if files.isEmpty then none
  else
    let is_multi := 1 < files.length ∨
      files.any (fun p => sContains p.2 "import" ∨ sContains p.2 "require(")
    if is_multi then some ⟨true, determineEntryPoint files, files⟩
    else some ⟨false, (files.headD ("", "")).1, files⟩

/-! ### `CodeExecutor._extract_code`
(src/evaluators/code_executor.py lines 156-299) -/

/-- The five per-language block lists of the categorization loop. -/
structure CodeBlocks where
  html : List String
  css : List String
  js : List String
  py : List String
  other : List (String × String)
  deriving Repr, DecidableEq

/-- One iteration of the categorization loop.  A block with a nonempty
language tag outside the recognized set falls through every branch and is
dropped; `other_blocks` only ever receives untagged blocks. -/
def catStep (b : CodeBlocks) (p : String × String) : CodeBlocks :=
  let lang := lowerS p.1
  let code := stripS p.2
  if code = "" then b
  else if lang = "html" ∨ lang = "htm" ∨ sContains (lowerS code) "<html"
      ∨ sContains code "<!DOCTYPE" then
    { b with html := b.html ++ [code] }
  else if lang = "css" then { b with css := b.css ++ [code] }
  else if lang = "javascript" ∨ lang = "js" then
    { b with js := b.js ++ [code] }
  else if lang = "python" ∨ lang = "py" then { b with py := b.py ++ [code] }
  else if lang = "" then
    if sContains (lowerS code) "<html" ∨ sContains code "<!DOCTYPE" then
      { b with html := b.html ++ [code] }
    else if sContains code "def " ∨ sContains code "import "
        ∨ sContains code "print(" then
      { b with py := b.py ++ [code] }
    else if sContains code "function" ∨ sContains code "const "
        ∨ sContains code "let " ∨ sContains code "var " then
      { b with js := b.js ++ [code] }
    else { b with other := b.other ++ [(lang, code)] }
  else b

def categorize (blocks : List (String × String)) : CodeBlocks :=
  blocks.foldl catStep ⟨[], [], [], [], []⟩

/-- CSS/JS injection into a complete HTML document (the containment
checks run on the original block's lowercase text, the replacements on
the running result, replacing every occurrence — Python `str.replace`). -/
def buildHtmlResult (b : CodeBlocks) (html : String) : String :=
  let result := html
  let result :=
    if ¬b.css.isEmpty ∧ ¬sContains (lowerS html) "<style>" then
      let css_content := String.intercalate "\n" b.css
      let style_tag := "<style>\n" ++ css_content ++ "\n</style>"
      if sContains (lowerS html) "</head>" then
        result.replace "</head>" (style_tag ++ "\n</head>")
      else
        result.replace "<html>" ("<html>\n<head>\n" ++ style_tag ++ "\n</head>")
    else result
  if ¬b.js.isEmpty ∧ ¬sContains (lowerS html) "<script>" then
    let js_content := String.intercalate "\n" b.js
    let script_tag := "<script>\n" ++ js_content ++ "\n</script>"
    if sContains (lowerS html) "</body>" then
      result.replace "</body>" (script_tag ++ "\n</body>")
    else result ++ "\n" ++ script_tag
  else result

/-- The partial-HTML wrapper template. -/
def combinedPartialHtml (b : CodeBlocks) : String :=
  let html_content := String.intercalate "\n" b.html
  let css_content := String.intercalate "\n" b.css
  let js_content := String.intercalate "\n" b.js
  "<!DOCTYPE html>\n<html>\n<head>\n    <meta charset=\"UTF-8\">\n    " ++
    (if css_content ≠ "" then "<style>" ++ css_content ++ "</style>" else "")
    ++ "\n</head>\n<body>\n    " ++ html_content ++ "\n    " ++
    (if js_content ≠ "" then "<script>" ++ js_content ++ "</script>" else "")
    ++ "\n</body>\n</html>"

/-- The CSS-only wrapper template. -/
def cssWrap (css : List String) : String :=
  let css_content := String.intercalate "\n" css
  "<!DOCTYPE html>\n<html>\n<head>\n    <style>" ++ css_content ++
    "</style>\n</head>\n<body>\n    <div>Styles loaded</div>\n</body>\n</html>"

/-- `_extract_code`: returns `(code, language)` or nothing. -/
def extractCode (text : String) : Option (String × String) :=
  if text = "" then none
  else
    let mts := scanAll matchFence1 text.data
    let mts :=
      if mts.isEmpty then scanAll matchFence2 text.data else mts
    if mts.isEmpty then
      if sContains (lowerS text) "<html" ∨
          sContains (lowerS text) "<!doctype html" then
        some (stripS text, "html")
      else if sContains text "def " ∨ sContains text "import "
          ∨ sContains text "class " then
        some (stripS text, "python")
      else if sContains text "function " ∨ sContains text "const "
          ∨ sContains text "let " ∨ sContains text "var " then
        some (stripS text, "javascript")
      else none
    else
      let b := categorize mts
      if ¬b.html.isEmpty then
        match b.html.find? (fun h =>
            sContains (lowerS h) "<html" ∨ sContains (lowerS h) "<!DOCTYPE")
          with
        | some html => some (buildHtmlResult b html, "html")
        | none => some (combinedPartialHtml b, "html")
      else if ¬b.py.isEmpty then
        some (String.intercalate "\n\n" b.py, "python")
      else if ¬b.js.isEmpty then
        some (String.intercalate "\n\n" b.js, "javascript")
      else if ¬b.css.isEmpty then some (cssWrap b.css, "html")
      else
        match b.other with
        | (lang, code) :: _ =>
          some (code, if lang = "" then "unknown" else lang)
        | [] => none

/-! ### `_validate_html` and `evaluate` -/

/-- Index of the first occurrence of a substring (both guaranteed present
at the call site — Python `str.index`). -/
def firstIdx : List Char → List Char → ℕ
  | [], _ => 0
  | c :: t, n => if n.isPrefixOf (c :: t) then 0 else firstIdx t n + 1

/-- `_validate_html`. -/
def validateHtml (code : String) : Bool × String × String :=
  let code_lower := lowerS code
  let missing :=
    ["<html", "</html>", "<body", "</body>"].filter
      (fun t => ¬sContains code_lower t)
  if ¬missing.isEmpty then
    (false, "", "Missing required HTML tags: " ++ String.intercalate ", " missing)
  else if firstIdx code_lower.data "<body".data >
      firstIdx code_lower.data "</body>".data then
    (false, "", "Invalid HTML structure: closing body tag before opening")
  else (true, "HTML structure is valid", "")

/-- The score/reasoning/passed computation at the tail of `evaluate`
(lines 120-154), shared by all three language branches. -/
def finishEval (q : Question) (r : ModelResponse) (language : String)
    (success : Bool) (output error : String) : Evaluation :=
  let score : ℚ := if success then 100 else 0
  let reasoning :=
    if success then "Code executed successfully (" ++ language ++ ")"
    else "Code execution failed: " ++ error
  let passed := success
  if success ∧ optTruthy q.expected_output then
    if sContains (stripS output) (stripS (q.expected_output.getD "")) then
      { question_id := q.id, model_name := r.model_name, score := 100,
        passed := passed, evaluation_type := "code_execution",
        reasoning := "Code executed successfully and output matches expected" }
    else
      { question_id := q.id, model_name := r.model_name, score := 50,
        passed := false, evaluation_type := "code_execution",
        reasoning := "Code executed but output doesn\x27t match expected" }
  else
    { question_id := q.id, model_name := r.model_name, score := score,
      passed := passed, evaluation_type := "code_execution",
      reasoning := reasoning }

/-- The subprocess results are an oracle: `evaluate` is proved for every
possible behaviour of the two interpreters. -/
structure ExecOracle where
  runPython : String → Bool × String × String
  runJavascript : String → Bool × String × String

/-- `CodeExecutor.evaluate` (async wrapper dropped; the artifact-id
bookkeeping and cleanup do not affect the returned Evaluation). -/
def evaluateE (ox : ExecOracle) (q : Question) (r : ModelResponse) :
    Evaluation :=
  if optTruthy r.error then
    { question_id := q.id, model_name := r.model_name, score := 0,
      passed := false, evaluation_type := "code_execution",
      reasoning := "Response failed with error: " ++ r.error.getD "" }
  else if r.response_text = "" then
    { question_id := q.id, model_name := r.model_name, score := 0,
      passed := false, evaluation_type := "code_execution",
      reasoning := "Response text is empty or None" }
  else
    let single : Evaluation :=
      match extractCode r.response_text with
      | none =>
        { question_id := q.id, model_name := r.model_name, score := 0,
          passed := false, evaluation_type := "code_execution",
          reasoning := "No code block found in response. " ++
            (if r.response_text = "" then "Response is empty."
             else if sContains r.response_text "```" then
               "Response contains ``` but code extraction failed. Check formatting."
             else "Response does not contain markdown code blocks (```).") }
      | some (code, language) =>
        if code = "" then
          { question_id := q.id, model_name := r.model_name, score := 0,
            passed := false, evaluation_type := "code_execution",
            reasoning := "No code block found in response. " ++
              (if r.response_text = "" then "Response is empty."
               else if sContains r.response_text "```" then
                 "Response contains ``` but code extraction failed. Check formatting."
               else "Response does not contain markdown code blocks (```).") }
        else if language = "python" ∨ language = "py" then
          let res := ox.runPython code
          finishEval q r language res.1 res.2.1 res.2.2
        else if language = "javascript" ∨ language = "js" then
          let res := ox.runJavascript code
          finishEval q r language res.1 res.2.1 res.2.2
        else if language = "html" ∨ language = "htm" then
          let res := validateHtml code
          finishEval q r language res.1 res.2.1 res.2.2
        else
          { question_id := q.id, model_name := r.model_name, score := 0,
            passed := false, evaluation_type := "code_execution",
            reasoning := "Unsupported language: " ++ language }
    match extractMultiFileArtifact r.response_text with
    | some art =>
      if art.isMulti then evalMultiFileArtifact q r art.files art.entry_point
      else single
    | none => single



/-! ### C3 and C10: scores of the single-blob path -/

theorem listContains_nil (h : List Char) : listContains h [] = true := by
  cases h <;> simp [listContains, List.isPrefixOf]

theorem sContains_empty (h : String) : sContains h "" = true :=
  listContains_nil h.data

/-- C3: in the single-blob path, when execution succeeded and the
question declares an expected-output hint, the Evaluation scores 100
exactly when the stripped hint is a substring of the stripped stdout,
and otherwise scores 50 with `passed = false`. -/
theorem expected_output_check_c3 (q : Question) (r : ModelResponse)
    (language output error s : String)
    (heo : q.expected_output = some s) :
    (sContains (stripS output) (stripS s) = true →
      (finishEval q r language true output error).score = 100) ∧
    (sContains (stripS output) (stripS s) = false →
      (finishEval q r language true output error).score = 50 ∧
        (finishEval q r language true output error).passed = false) := by
  unfold finishEval
  rw [heo]
  by_cases hs : s = ""
  · subst hs
    constructor
    · intro _
      simp +decide [optTruthy]
    · intro h
      exfalso
      rw [show stripS "" = "" from rfl, sContains_empty] at h
      exact Bool.true_eq_false.mp h
  · have htr : optTruthy (some s) = true := by
      have hemp : s.isEmpty = false := by
        rw [Bool.eq_false_iff]
        intro hx
        exact hs ((String.isEmpty_iff s).mp hx)
      simp [optTruthy, hemp]
    constructor
    · intro h
      simp [htr, h]
    · intro h
      simp [htr, h]

/-- Witness for C3 at a concrete matching pair. -/
theorem expected_output_check_c3_witness :
    (finishEval ⟨"q", some "hi", []⟩ demoResponse "python" true "say hi" "").score
      = 100 :=
  (expected_output_check_c3 ⟨"q", some "hi", []⟩ demoResponse "python"
    "say hi" "" "hi" rfl).1 (by decide)

theorem finishEval_cases (q : Question) (r : ModelResponse)
    (language : String) (success : Bool) (output error : String) :
    ((finishEval q r language success output error).score = 0 ∨
      (finishEval q r language success output error).score = 50 ∨
      (finishEval q r language success output error).score = 100) ∧
    ((finishEval q r language success output error).passed = true ↔
      (finishEval q r language success output error).score = 100) := by
  unfold finishEval
  by_cases hsucc : success = true
  · by_cases heo : optTruthy q.expected_output = true
    · by_cases hm : sContains (stripS output)
          (stripS (q.expected_output.getD "")) = true
      · simp [hsucc, heo, hm]
      · simp [hsucc, heo, hm]
    · simp [hsucc, heo]
  · simp [hsucc]

/-- C10: every Evaluation produced by the single-blob path (evaluation
type `code_execution`, as opposed to the multi-file structural path) has
score in `{0, 50, 100}` and `passed` holds iff the score is 100. -/
theorem single_blob_scores_c10 (ox : ExecOracle) (q : Question)
    (r : ModelResponse)
    (h : (evaluateE ox q r).evaluation_type = "code_execution") :
    ((evaluateE ox q r).score = 0 ∨ (evaluateE ox q r).score = 50 ∨
      (evaluateE ox q r).score = 100) ∧
    ((evaluateE ox q r).passed = true ↔ (evaluateE ox q r).score = 100) := by
  unfold evaluateE at h ⊢
  by_cases h1 : optTruthy r.error = true
  · simp [h1]
  · simp only [h1, Bool.false_eq_true, if_false] at h ⊢
    by_cases h2 : r.response_text = ""
    · simp [h2]
    · simp only [h2, if_false] at h ⊢
      cases hart : extractMultiFileArtifact r.response_text with
      | some art =>
        simp only [hart] at h ⊢
        by_cases hm : art.isMulti = true
        · exfalso
          simp only [hm, if_true, evalMultiFileArtifact] at h
          exact absurd h (by decide)
        · simp only [hm, Bool.false_eq_true, if_false] at h ⊢
          cases hec : extractCode r.response_text with
          | none =>
            simp [hec]
          | some cl =>
            obtain ⟨code, language⟩ := cl
            simp only [hec]
            by_cases hc0 : code = ""
            · simp [hc0]
            · simp only [hc0, if_false]
              by_cases hpy : language = "python" ∨ language = "py"
              · simp only [hpy, if_true]
                exact finishEval_cases q r language _ _ _
              · simp only [hpy, if_false]
                by_cases hjs : language = "javascript" ∨ language = "js"
                · simp only [hjs, if_true]
                  exact finishEval_cases q r language _ _ _
                · simp only [hjs, if_false]
                  by_cases hht : language = "html" ∨ language = "htm"
                  · simp only [hht, if_true]
                    exact finishEval_cases q r language _ _ _
                  · simp [hht]
      | none =>
        simp only [hart] at h ⊢
        cases hec : extractCode r.response_text with
        | none =>
          simp [hec]
        | some cl =>
          obtain ⟨code, language⟩ := cl
          simp only [hec]
          by_cases hc0 : code = ""
          · simp [hc0]
          · simp only [hc0, if_false]
            by_cases hpy : language = "python" ∨ language = "py"
            · simp only [hpy, if_true]
              exact finishEval_cases q r language _ _ _
            · simp only [hpy, if_false]
              by_cases hjs : language = "javascript" ∨ language = "js"
              · simp only [hjs, if_true]
                exact finishEval_cases q r language _ _ _
              · simp only [hjs, if_false]
                by_cases hht : language = "html" ∨ language = "htm"
                · simp only [hht, if_true]
                  exact finishEval_cases q r language _ _ _
                · simp [hht]

def oracle0 : ExecOracle :=
  ⟨fun _ => (true, "", ""), fun _ => (true, "", "")⟩

def pyResponse : ModelResponse :=
  { model_name := "m", response_text := "Here:\n```python\nx = 1\n```",
    error := none }

/-- Witness for C10: a concrete successful Python execution. -/
theorem single_blob_scores_c10_witness :
    (((evaluateE oracle0 demoQuestion pyResponse).score = 0 ∨
        (evaluateE oracle0 demoQuestion pyResponse).score = 50 ∨
        (evaluateE oracle0 demoQuestion pyResponse).score = 100) ∧
      ((evaluateE oracle0 demoQuestion pyResponse).passed = true ↔
        (evaluateE oracle0 demoQuestion pyResponse).score = 100)) :=
  single_blob_scores_c10 oracle0 demoQuestion pyResponse (by decide)

/-! ### C5: the four filename conventions are cumulative, not
first-match-wins -/

/-- A response in which convention 1 (language-tag filename) matches
`index.html` and convention 4 (heading) matches `app.js`. -/
def c5Text : String :=
  "```html:index.html\n<p>hi</p>\n```\n## app.js\n```\nx\n```"

/-- C5 counterexample: on `c5Text` the first convention matches and
yields only `index.html`, yet the extracted file set also contains the
heading-convention file `app.js` — the four conventions are applied
cumulatively, not first-match-wins. -/
theorem first_match_wins_c5_cex :
    (scanAll matchA1 c5Text.data).map
        (fun p => (stripS p.1, stripS p.2)) =
      [("index.html", "<p>hi</p>")] ∧
    extractFilesFromResponse c5Text =
      [("index.html", "<p>hi</p>"), ("app.js", "x")] := by
  constructor
  · decide
  · decide

theorem mem_dkeys_dinsert_self (k v : String) (fs : List (String × String)) :
    k ∈ dkeys (dinsert k v fs) := by
  induction fs with
  | nil => simp [dinsert, dkeys]
  | cons p t ih =>
    obtain ⟨k', v'⟩ := p
    by_cases hk : k' = k
    · simp [dinsert, hk, dkeys]
    · simp only [dinsert, hk, if_false, dkeys, List.map_cons, List.mem_cons]
      exact Or.inr ih

theorem mem_dkeys_dinsert_of (k k' v : String) (fs : List (String × String))
    (h : k' ∈ dkeys fs) : k' ∈ dkeys (dinsert k v fs) := by
  induction fs with
  | nil => simp [dkeys] at h
  | cons p t ih =>
    obtain ⟨k₀, v₀⟩ := p
    by_cases hk : k₀ = k
    · subst hk
      simp [dinsert, dkeys] at h ⊢
      exact h
    · simp only [dkeys, List.map_cons, List.mem_cons] at h
      simp only [dinsert, hk, if_false, dkeys, List.map_cons, List.mem_cons]
      rcases h with h | h
      · exact Or.inl h
      · exact Or.inr (ih h)

theorem mem_dkeys_foldl_keep (l : List (String × String))
    (fs : List (String × String)) (k : String) (h : k ∈ dkeys fs) :
    k ∈ dkeys (l.foldl (fun fs q => dinsert q.1 q.2 fs) fs) := by
  induction l generalizing fs with
  | nil => exact h
  | cons q t ih =>
    simp only [List.foldl_cons]
    exact ih _ (mem_dkeys_dinsert_of q.1 k q.2 fs h)

theorem mem_dkeys_foldl_dinsert (l : List (String × String))
    (fs : List (String × String)) (p : String × String) (hp : p ∈ l) :
    p.1 ∈ dkeys (l.foldl (fun fs q => dinsert q.1 q.2 fs) fs) := by
  induction l generalizing fs with
  | nil => simp at hp
  | cons q t ih =>
    simp only [List.foldl_cons]
    rcases List.mem_cons.mp hp with hq | hq
    · subst hq
      exact mem_dkeys_foldl_keep t _ p.1 (mem_dkeys_dinsert_self p.1 p.2 fs)
    · exact ih _ hq

/-- C5 amended: the four filename-hinting conventions are applied
cumulatively in source order over the whole text — every `(filename,
content)` pair matched by any of the four conventions contributes its
(stripped) filename to the extracted file map, later conventions
overwriting equal filenames — and the inference fallback runs exactly
when no convention produced a file. -/
theorem extraction_cumulative_c5 (text : String) :
    (rawHints text = [] →
      extractFilesFromResponse text = inferFilesFromBlocks text) ∧
    (∀ p ∈ rawHints text, p.1 ∈ dkeys (extractFilesFromResponse text)) := by
  constructor
  · intro h
    unfold extractFilesFromResponse
    rw [h]
    rfl
  · intro p hp
    unfold extractFilesFromResponse
    have hne : ¬((rawHints text).foldl
        (fun fs q => dinsert q.1 q.2 fs) []).isEmpty = true := by
      intro hempty
      have hk := mem_dkeys_foldl_dinsert (rawHints text) [] p hp
      rw [List.isEmpty_iff.mp hempty] at hk
      simp [dkeys] at hk
    simp only [hne, Bool.false_eq_true, if_false]
    exact mem_dkeys_foldl_dinsert (rawHints text) [] p hp

/-- Witness for the amended C5 theorem on `c5Text`: the heading-hinted
file name is a key of the result. -/
theorem extraction_cumulative_c5_witness :
    ("app.js", "x").1 ∈ dkeys (extractFilesFromResponse c5Text) :=
  (extraction_cumulative_c5 c5Text).2 ("app.js", "x") (by decide)

/-! ### C6: decimal representations, for the inferred default filenames

`Nat.repr` is `(Nat.toDigits 10 n).asString`; `digsAux` is a fuel-free
version of `Nat.toDigitsCore`, with a parse function giving a round
trip. -/

def digsAux (n : ℕ) (ds : List Char) : List Char :=
  let d := Nat.digitChar (n % 10)
  let n' := n / 10
  if _h : n' = 0 then d :: ds
  else digsAux n' (d :: ds)
termination_by n
decreasing_by
  exact Nat.div_lt_self (by omega) (by omega)

theorem toDigitsCore_eq_digsAux :
    ∀ (fuel n : ℕ) (ds : List Char), n < fuel →
      Nat.toDigitsCore 10 fuel n ds = digsAux n ds := by
  intro fuel
  induction fuel with
  | zero => omega
  | succ f ih =>
    intro n ds hn
    rw [digsAux]
    simp only [Nat.toDigitsCore]
    by_cases h : n / 10 = 0
    · simp [h]
    · simp only [h, if_false, dif_neg h]
      exact ih (n / 10) _ (by omega)

theorem repr_data_eq (n : ℕ) : (Nat.repr n).data = digsAux n [] := by
  show (Nat.toDigits 10 n).asString.data = digsAux n []
  rw [Nat.toDigits, toDigitsCore_eq_digsAux (n + 1) n [] (by omega)]
  rfl

theorem digsAux_append (n : ℕ) :
    ∀ ds : List Char, digsAux n ds = digsAux n [] ++ ds := by
  induction n using Nat.strong_induction_on with
  | _ n ih =>
    intro ds
    by_cases h : n / 10 = 0
    · conv_lhs => rw [digsAux]
      conv_rhs => rw [digsAux]
      simp [h]
    · conv_lhs => rw [digsAux]
      conv_rhs => rw [digsAux]
      simp only [dif_neg h]
      have hlt : n / 10 < n := Nat.div_lt_self (by omega) (by omega)
      rw [ih _ hlt (Nat.digitChar (n % 10) :: ds),
        ih _ hlt (Nat.digitChar (n % 10) :: [])]
      simp

theorem digitChar_isDigit (m : ℕ) (h : m < 10) :
    (Nat.digitChar m).isDigit = true := by
  interval_cases m <;> decide

theorem digsAux_all_digit (n : ℕ) :
    ∀ c ∈ digsAux n [], c.isDigit = true := by
  induction n using Nat.strong_induction_on with
  | _ n ih =>
    rw [digsAux]
    by_cases h : n / 10 = 0
    · simp only [h, dif_pos]
      intro c hc
      simp at hc
      subst hc
      exact digitChar_isDigit _ (Nat.mod_lt _ (by omega))
    · simp only [dif_neg h]
      have hlt : n / 10 < n := Nat.div_lt_self (by omega) (by omega)
      rw [digsAux_append]
      intro c hc
      rcases List.mem_append.mp hc with hc | hc
      · exact ih _ hlt c hc
      · simp at hc
        subst hc
        exact digitChar_isDigit _ (Nat.mod_lt _ (by omega))

theorem digsAux_ne_nil (n : ℕ) : digsAux n [] ≠ [] := by
  rw [digsAux]
  by_cases h : n / 10 = 0
  · simp [h]
  · simp only [dif_neg h]
    rw [digsAux_append]
    simp

def digitVal (c : Char) : ℕ :=
  c.toNat - '0'.toNat

def parseVal (l : List Char) : ℕ :=
  l.foldl (fun a c => a * 10 + digitVal c) 0

theorem digitVal_digitChar (m : ℕ) (h : m < 10) :
    digitVal (Nat.digitChar m) = m := by
  interval_cases m <;> decide

theorem parseVal_append_aux (l : List Char) :
    ∀ a : ℕ, l.foldl (fun a c => a * 10 + digitVal c) a =
      a * 10 ^ l.length + parseVal l := by
  induction l with
  | nil => intro a; simp [parseVal]
  | cons c t ih =>
    intro a
    simp only [List.foldl_cons, parseVal]
    rw [ih (a * 10 + digitVal c), ih (0 * 10 + digitVal c)]
    ring_nf
    simp [pow_succ]
    ring

theorem parseVal_digsAux (n : ℕ) : parseVal (digsAux n []) = n := by
  induction n using Nat.strong_induction_on with
  | _ n ih =>
    rw [digsAux]
    by_cases h : n / 10 = 0
    · simp only [h, dif_pos]
      simp [parseVal, digitVal_digitChar _ (Nat.mod_lt _ (by omega : (0:ℕ) < 10))]
      omega
    · simp only [dif_neg h]
      have hlt : n / 10 < n := Nat.div_lt_self (by omega) (by omega)
      rw [digsAux_append, parseVal, List.foldl_append]
      have h1 : (digsAux (n / 10) []).foldl (fun a c => a * 10 + digitVal c) 0
          = n / 10 := ih _ hlt
      rw [show ((digsAux (n / 10) []).foldl
            (fun a c => a * 10 + digitVal c) 0) = parseVal (digsAux (n / 10) [])
          from rfl] at h1
      show (List.foldl (fun a c => a * 10 + digitVal c)
        (List.foldl (fun a c => a * 10 + digitVal c) 0 (digsAux (n / 10) []))
        [Nat.digitChar (n % 10)]) = n
      rw [show (List.foldl (fun a c => a * 10 + digitVal c) 0
          (digsAux (n / 10) [])) = parseVal (digsAux (n / 10) []) from rfl, h1]
      simp [digitVal_digitChar _ (Nat.mod_lt _ (by omega : (0:ℕ) < 10))]
      omega

theorem repr_data_injective (a b : ℕ)
    (h : (Nat.repr a).data = (Nat.repr b).data) : a = b := by
  rw [repr_data_eq, repr_data_eq] at h
  have := congrArg parseVal h
  rwa [parseVal_digsAux, parseVal_digsAux] at this

theorem repr_data_ne_nil (n : ℕ) : (Nat.repr n).data ≠ [] := by
  rw [repr_data_eq]
  exact digsAux_ne_nil n

theorem repr_data_all_digit (n : ℕ) :
    ∀ c ∈ (Nat.repr n).data, c.isDigit = true := by
  rw [repr_data_eq]
  exact digsAux_all_digit n

def parseNat (l : List Char) : Option ℕ :=
  if l.isEmpty then none else some (parseVal l)

/-- Proof gadget: recover the kind tag (0 = html, 1 = css, 2 = js/ts) and
the counter value from an inferred default filename; `config.json` and
foreign strings decode to `none`. -/
def decodeName (s : String) : Option (ℕ × ℕ) :=
  match s.data with
  | 'i' :: _ => some (0, 0)
  | 'p' :: 'a' :: rest =>
    some (0, (parseNat ((rest.drop 2).takeWhile Char.isDigit)).getD 0)
  | 's' :: 't' :: rest =>
    some (1, (parseNat ((rest.drop 4).takeWhile Char.isDigit)).getD 0)
  | 'a' :: 'p' :: 'p' :: rest =>
    some (2, (parseNat (rest.takeWhile Char.isDigit)).getD 0)
  | 'm' :: rest =>
    some (2, (parseNat ((rest.drop 5).takeWhile Char.isDigit)).getD 0)
  | 's' :: 'c' :: rest =>
    some (2, (parseNat ((rest.drop 4).takeWhile Char.isDigit)).getD 0)
  | _ => none

theorem takeWhile_all_append (p : Char → Bool) (xs ys : List Char) (y : Char)
    (hxs : ∀ a ∈ xs, p a = true) (hy : p y = false) :
    (xs ++ y :: ys).takeWhile p = xs := by
  induction xs with
  | nil => simp [List.takeWhile_cons, hy]
  | cons a t ih =>
    simp only [List.cons_append, List.takeWhile_cons, hxs a (by simp),
      if_true]
    rw [ih (fun b hb => hxs b (by simp [hb]))]

theorem parseNat_reprData (k : ℕ) : parseNat (Nat.repr k).data = some k := by
  rw [parseNat]
  have hne : ¬(Nat.repr k).data.isEmpty = true := by
    simp [List.isEmpty_iff, repr_data_ne_nil k]
  rw [if_neg hne]
  rw [show parseVal (Nat.repr k).data = k from by
    rw [repr_data_eq]; exact parseVal_digsAux k]

theorem takeWhile_digit_repr_append (k : ℕ) (y : Char) (ys : List Char)
    (hy : y.isDigit = false) :
    ((Nat.repr k).data ++ y :: ys).takeWhile Char.isDigit
      = (Nat.repr k).data :=
  takeWhile_all_append Char.isDigit _ ys y (repr_data_all_digit k) hy

theorem decode_htmlName (k : ℕ) : decodeName (htmlName k) = some (0, k) := by
  by_cases hk : k = 0
  · subst hk
    decide
  · unfold htmlName
    rw [if_neg hk]
    show some (0, (parseNat (((Nat.repr k).data ++
      ".html".data).takeWhile Char.isDigit)).getD 0) = some (0, k)
    rw [show (".html".data : List Char) = '.' :: "html".data from rfl,
      takeWhile_digit_repr_append k '.' _ (by decide), parseNat_reprData]
    rfl

theorem decode_cssName (k : ℕ) : decodeName (cssName k) = some (1, k) := by
  by_cases hk : k = 0
  · subst hk
    decide
  · unfold cssName
    rw [if_neg hk]
    show some (1, (parseNat (((Nat.repr k).data ++
      ".css".data).takeWhile Char.isDigit)).getD 0) = some (1, k)
    rw [show (".css".data : List Char) = '.' :: "css".data from rfl,
      takeWhile_digit_repr_append k '.' _ (by decide), parseNat_reprData]
    rfl

theorem decode_moduleName (k : ℕ) :
    decodeName (moduleName k) = some (2, k) := by
  by_cases hk : k = 0
  · subst hk
    decide
  · unfold moduleName
    rw [if_neg hk]
    show some (2, (parseNat (((Nat.repr k).data ++
      ".js".data).takeWhile Char.isDigit)).getD 0) = some (2, k)
    rw [show (".js".data : List Char) = '.' :: "js".data from rfl,
      takeWhile_digit_repr_append k '.' _ (by decide), parseNat_reprData]
    rfl

theorem decode_scriptName (k : ℕ) :
    decodeName (scriptName k) = some (2, k) := by
  by_cases hk : k = 0
  · subst hk
    decide
  · unfold scriptName
    rw [if_neg hk]
    show some (2, (parseNat (((Nat.repr k).data ++
      ".js".data).takeWhile Char.isDigit)).getD 0) = some (2, k)
    rw [show (".js".data : List Char) = '.' :: "js".data from rfl,
      takeWhile_digit_repr_append k '.' _ (by decide), parseNat_reprData]
    rfl

theorem decode_tsName (k : ℕ) : decodeName (tsName k) = some (2, k) := by
  by_cases hk : k = 0
  · subst hk
    decide
  · unfold tsName
    rw [if_pos (by omega : 0 < k)]
    show some (2, (parseNat (((Nat.repr k).data ++
      ".ts".data).takeWhile Char.isDigit)).getD 0) = some (2, k)
    rw [show (".ts".data : List Char) = '.' :: "ts".data from rfl,
      takeWhile_digit_repr_append k '.' _ (by decide), parseNat_reprData]
    rfl

theorem decode_config : decodeName "config.json" = none := by
  decide

/-- What `decodeName` yields on every name the classification loop can
emit with counters at least `(hc, cc, jc)`. -/
def DecProp (hc cc jc : ℕ) (n : String) : Prop :=
  n = "config.json" ∨
    (∃ k, hc ≤ k ∧ decodeName n = some (0, k)) ∨
    (∃ k, cc ≤ k ∧ decodeName n = some (1, k)) ∨
    (∃ k, jc ≤ k ∧ decodeName n = some (2, k))

theorem DecProp_mono (hc cc jc hc' cc' jc' : ℕ) (n : String)
    (hh : hc ≤ hc') (hcc : cc ≤ cc') (hj : jc ≤ jc')
    (h : DecProp hc' cc' jc' n) : DecProp hc cc jc n := by
  rcases h with h | ⟨k, hk, h⟩ | ⟨k, hk, h⟩ | ⟨k, hk, h⟩
  · exact Or.inl h
  · exact Or.inr (Or.inl ⟨k, le_trans hh hk, h⟩)
  · exact Or.inr (Or.inr (Or.inl ⟨k, le_trans hcc hk, h⟩))
  · exact Or.inr (Or.inr (Or.inr ⟨k, le_trans hj hk, h⟩))

theorem infer_names_decode (bs : List (String × String)) :
    ∀ hc cc jc, ∀ n ∈ (inferAssigns (hc, cc, jc) bs).map Prod.fst,
      DecProp hc cc jc n := by
  induction bs with
  | nil =>
    intro hc cc jc n hn
    simp [inferAssigns] at hn
  | cons b t ih =>
    intro hc cc jc n hn
    obtain ⟨lang₀, code₀⟩ := b
    simp only [inferAssigns] at hn
    split_ifs at hn with h1 h2 h3 h4 h5 h6
    · rw [List.map_cons] at hn
      rcases List.mem_cons.mp hn with hn | hn
      · exact Or.inr (Or.inl ⟨hc, le_refl hc, hn ▸ decode_htmlName hc⟩)
      · exact DecProp_mono _ _ _ _ _ _ n (by omega) (by omega) (by omega)
          (ih (hc + 1) cc jc n hn)
    · rw [List.map_cons] at hn
      rcases List.mem_cons.mp hn with hn | hn
      · exact Or.inr (Or.inr (Or.inl ⟨cc, le_refl cc, hn ▸ decode_cssName cc⟩))
      · exact DecProp_mono _ _ _ _ _ _ n (by omega) (by omega) (by omega)
          (ih hc (cc + 1) jc n hn)
    · rw [List.map_cons] at hn
      rcases List.mem_cons.mp hn with hn | hn
      · exact Or.inr (Or.inr (Or.inr ⟨jc, le_refl jc,
          hn ▸ decode_moduleName jc⟩))
      · exact DecProp_mono _ _ _ _ _ _ n (by omega) (by omega) (by omega)
          (ih hc cc (jc + 1) n hn)
    · rw [List.map_cons] at hn
      rcases List.mem_cons.mp hn with hn | hn
      · exact Or.inr (Or.inr (Or.inr ⟨jc, le_refl jc,
          hn ▸ decode_scriptName jc⟩))
      · exact DecProp_mono _ _ _ _ _ _ n (by omega) (by omega) (by omega)
          (ih hc cc (jc + 1) n hn)
    · rw [List.map_cons] at hn
      rcases List.mem_cons.mp hn with hn | hn
      · exact Or.inr (Or.inr (Or.inr ⟨jc, le_refl jc, hn ▸ decode_tsName jc⟩))
      · exact DecProp_mono _ _ _ _ _ _ n (by omega) (by omega) (by omega)
          (ih hc cc (jc + 1) n hn)
    · rw [List.map_cons] at hn
      rcases List.mem_cons.mp hn with hn | hn
      · exact Or.inl hn
      · exact ih hc cc jc n hn
    · exact ih hc cc jc n hn

theorem name_ne_config (s : String) (v : ℕ × ℕ) (hv : decodeName s = some v) :
    decide (s ≠ "config.json") = true := by
  rw [decide_eq_true_eq]
  intro hcfg
  rw [hcfg, decode_config] at hv
  exact Option.noConfusion hv

theorem nodup_filter_cons_js (t : List (String × String)) (hc cc jc : ℕ)
    (nm : String) (h0 : decodeName nm = some (2, jc))
    (htail : (((inferAssigns (hc, cc, jc + 1) t).map Prod.fst).filter
      (fun n => n ≠ "config.json")).Nodup) :
    ((nm :: (inferAssigns (hc, cc, jc + 1) t).map Prod.fst).filter
      (fun n => n ≠ "config.json")).Nodup := by
  rw [@List.filter_cons_of_pos String (fun n => decide (n ≠ "config.json"))
    nm _ (name_ne_config _ _ h0)]
  refine List.Nodup.cons ?_ htail
  intro hmem
  have hmem' := List.mem_of_mem_filter hmem
  have hd := infer_names_decode t hc cc (jc + 1) _ hmem'
  rcases hd with hd | ⟨k, hk, hd⟩ | ⟨k, hk, hd⟩ | ⟨k, hk, hd⟩
  · rw [hd, decode_config] at h0
    exact Option.noConfusion h0
  · rw [hd] at h0
    simp at h0
  · rw [hd] at h0
    simp at h0
  · rw [hd] at h0
    simp at h0
    omega

theorem infer_assigns_nodup (bs : List (String × String)) :
    ∀ hc cc jc,
      (((inferAssigns (hc, cc, jc) bs).map Prod.fst).filter
        (fun n => n ≠ "config.json")).Nodup := by
  induction bs with
  | nil =>
    intro hc cc jc
    simp [inferAssigns]
  | cons b t ih =>
    intro hc cc jc
    obtain ⟨lang₀, code₀⟩ := b
    simp only [inferAssigns]
    split_ifs with h1 h2 h3 h4 h5 h6
    · -- html block: emits `htmlName hc`, counters advance to `hc + 1`
      simp only [List.map_cons]
      rw [@List.filter_cons_of_pos String
        (fun n => decide (n ≠ "config.json")) (htmlName hc) _
        (name_ne_config _ _ (decode_htmlName hc))]
      refine List.Nodup.cons ?_ (ih (hc + 1) cc jc)
      intro hmem
      have hmem' := List.mem_of_mem_filter hmem
      have hd := infer_names_decode t (hc + 1) cc jc _ hmem'
      have h0 := decode_htmlName hc
      rcases hd with hd | ⟨k, hk, hd⟩ | ⟨k, hk, hd⟩ | ⟨k, hk, hd⟩
      · rw [hd, decode_config] at h0
        exact Option.noConfusion h0
      · rw [hd] at h0
        simp at h0
        omega
      · rw [hd] at h0
        simp at h0
      · rw [hd] at h0
        simp at h0
    · -- css block
      simp only [List.map_cons]
      rw [@List.filter_cons_of_pos String
        (fun n => decide (n ≠ "config.json")) (cssName cc) _
        (name_ne_config _ _ (decode_cssName cc))]
      refine List.Nodup.cons ?_ (ih hc (cc + 1) jc)
      intro hmem
      have hmem' := List.mem_of_mem_filter hmem
      have hd := infer_names_decode t hc (cc + 1) jc _ hmem'
      have h0 := decode_cssName cc
      rcases hd with hd | ⟨k, hk, hd⟩ | ⟨k, hk, hd⟩ | ⟨k, hk, hd⟩
      · rw [hd, decode_config] at h0
        exact Option.noConfusion h0
      · rw [hd] at h0
        simp at h0
      · rw [hd] at h0
        simp at h0
        omega
      · rw [hd] at h0
        simp at h0
    · -- js block with module-style imports
      simp only [List.map_cons]
      exact nodup_filter_cons_js t hc cc jc (moduleName jc)
        (decode_moduleName jc) (ih hc cc (jc + 1))
    · -- plain js block
      simp only [List.map_cons]
      exact nodup_filter_cons_js t hc cc jc (scriptName jc)
        (decode_scriptName jc) (ih hc cc (jc + 1))
    · -- ts block
      simp only [List.map_cons]
      exact nodup_filter_cons_js t hc cc jc (tsName jc)
        (decode_tsName jc) (ih hc cc (jc + 1))
    · -- json block: filtered out
      simp only [List.map_cons]
      rw [@List.filter_cons_of_neg String
        (fun n => decide (n ≠ "config.json")) "config.json" _ (by simp)]
      exact ih hc cc jc
    · exact ih hc cc jc

/-- A response with two JSON code blocks. -/
def c6Text : String := "```json\n[1]\n```\n```json\n[2]\n```"

/-- C6 counterexample: two distinct JSON blocks are both assigned
`config.json` (there is no counter for the JSON kind), so the second
block's content overwrites the first in the returned mapping. -/
theorem json_collision_c6_cex :
    (inferAssigns (0, 0, 0) (scanAll matchFenceNL c6Text.data)).map Prod.fst
        = ["config.json", "config.json"] ∧
      inferFilesFromBlocks c6Text = [("config.json", "[2]")] := by
  constructor
  · decide
  · decide

/-- C6 amended: in the filename-inference fallback, the per-kind counters
make any two distinct fenced blocks of the html, css or js/ts kinds
receive distinct filenames (no overwriting among them); only JSON blocks
share the fixed name `config.json` and can overwrite one another. -/
theorem infer_default_names_c6 (text : String) :
    (((inferAssigns (0, 0, 0) (scanAll matchFenceNL text.data)).map
      Prod.fst).filter (fun n => n ≠ "config.json")).Nodup :=
  infer_assigns_nodup (scanAll matchFenceNL text.data) 0 0 0

/-! ### C4: a fenced block with an unknown nonempty language tag is
dropped by `_extract_code`, so the "Unsupported language" branch is never
reached for it.

`prologText c` is a response consisting of exactly one fenced block
tagged `prolog` with body `c`; `c` may be anything free of backticks and
of the marker characters `#`, `/`, `<`. -/

def prologText (c : List Char) : String :=
  ⟨"```prolog\n".data ++ (c ++ "\n```".data)⟩

/-- A nonempty needle whose head is missing from the haystack is not a
substring. -/
theorem listContains_false (hay : List Char) (x : Char) (rest : List Char)
    (h : x ∉ hay) : listContains hay (x :: rest) = false := by
  induction hay with
  | nil => rfl
  | cons a t ih =>
    have hxa : ¬(x = a) := fun he => h (he ▸ List.mem_cons_self a t)
    have hxt : x ∉ t := fun hm => h (List.mem_cons_of_mem a hm)
    rw [listContains]
    simp only [Bool.or_eq_false_iff]
    constructor
    · simp [List.isPrefixOf_cons₂]
      intro he
      exact absurd he hxa
    · exact ih hxt

theorem headPrefix_false_cons (a : Char) (pat : List Char) (x : Char)
    (t : List Char) (h : x ≠ a) : (a :: pat).isPrefixOf (x :: t) = false := by
  simp [List.isPrefixOf_cons₂]
  intro he
  exact absurd he.symm h

theorem ticksPre_false_cons (x : Char) (t : List Char) (h : x ≠ '`') :
    ticksPre (x :: t) = false :=
  headPrefix_false_cons '`' _ x t h

theorem findClose_append_close (zs : List Char)
    (hz : ∀ ch ∈ zs, ch ≠ '`') :
    findClose (zs ++ ['`', '`', '`']) = some (zs, []) := by
  induction zs with
  | nil => decide
  | cons z t ih =>
    have hz0 : z ≠ '`' := hz z (List.mem_cons_self z t)
    rw [List.cons_append, findClose]
    rw [ticksPre_false_cons z _ hz0]
    rw [ih (fun ch hch => hz ch (List.mem_cons_of_mem z hch))]
    rfl

theorem scanAux_nil {α} (m : List Char → Option (α × List Char))
    (fuel : ℕ) : scanAux m fuel [] = [] := by
  cases fuel <;> rfl

/-- A matcher that succeeds at position 0 consuming the whole input makes
the scan return exactly that one match. -/
theorem scanAll_single {α} (m : List Char → Option (α × List Char))
    (l : List Char) (a : α) (x : Char) (t : List Char) (hl : l = x :: t)
    (hm : m l = some (a, [])) : scanAll m l = [a] := by
  subst hl
  show scanAux m (t.length + 1) (x :: t) = [a]
  rw [scanAux, hm]
  show a :: scanAux m t.length [] = [a]
  rw [scanAux_nil]

/-- A matcher failing at every start position makes the scan empty. -/
theorem scanAux_eq_nil {α} (m : List Char → Option (α × List Char)) :
    ∀ (fuel : ℕ) (l : List Char), (∀ n, m (l.drop n) = none) →
      scanAux m fuel l = [] := by
  intro fuel
  induction fuel with
  | zero => intro l _; rfl
  | succ f ih =>
    intro l h
    cases l with
    | nil => rfl
    | cons x t =>
      have h0 := h 0
      rw [List.drop_zero] at h0
      rw [scanAux, h0]
      exact ih t (fun n => by
        have := h (n + 1)
        rwa [List.drop_succ_cons] at this)

theorem scanAll_eq_nil {α} (m : List Char → Option (α × List Char))
    (l : List Char) (h : ∀ l', l' <:+ l → m l' = none) : scanAll m l = [] :=
  scanAux_eq_nil m l.length l (fun n => h _ (List.drop_suffix n l))

/-- Specification of `splitLastNL`: `none` iff no newline; otherwise the
input splits as `pre ++ suf` with the suffix newline-free. -/
theorem splitLastNL_spec (l : List Char) :
    (splitLastNL l = none → '\n' ∉ l) ∧
      (∀ pre suf, splitLastNL l = some (pre, suf) →
        l = pre ++ suf ∧ '\n' ∉ suf) := by
  induction l with
  | nil =>
    exact ⟨fun _ => by simp, fun pre suf h => by simp [splitLastNL] at h⟩
  | cons x t ih =>
    constructor
    · intro h
      rw [splitLastNL] at h
      cases hs : splitLastNL t with
      | some p => rw [hs] at h; obtain ⟨pre, suf⟩ := p; simp at h
      | none =>
        rw [hs] at h
        by_cases hx : x = '\n'
        · simp [hx] at h
        · simp [hx] at h ⊢
          exact ⟨fun he => hx he.symm, ih.1 hs⟩
    · intro pre suf h
      rw [splitLastNL] at h
      cases hs : splitLastNL t with
      | some p =>
        obtain ⟨pre', suf'⟩ := p
        rw [hs] at h
        simp at h
        obtain ⟨h1, h2⟩ := h
        obtain ⟨ht, hn⟩ := ih.2 pre' suf' hs
        subst h1
        subst h2
        exact ⟨by rw [List.cons_append, ← ht], hn⟩
      | none =>
        rw [hs] at h
        by_cases hx : x = '\n'
        · simp [hx] at h
          obtain ⟨h1, h2⟩ := h
          subst h1
          subst h2
          exact ⟨by simp [hx], ih.1 hs⟩
        · simp [hx] at h

/-- `Char.toLower` maps only `<` to `<`. -/
theorem toLower_eq_lt {ch : Char} (h : ch.toLower = '<') : ch = '<' := by
  by_cases hr : 65 ≤ ch.toNat ∧ ch.toNat ≤ 90
  · exfalso
    have hv : (ch.toNat + 32).isValidChar := Or.inl (by omega)
    have h' : Char.ofNat (ch.toNat + 32) = '<' := by
      rw [Char.toLower] at h
      rwa [if_pos (by exact ⟨hr.1, hr.2⟩)] at h
    rw [Char.ofNat, dif_pos hv] at h'
    have h2 := congrArg Char.toNat h'
    have h3 : (Char.ofNatAux (ch.toNat + 32) hv).toNat = ch.toNat + 32 := rfl
    rw [h3] at h2
    have h4 : ('<' : Char).toNat = 60 := rfl
    omega
  · rw [Char.toLower] at h
    rwa [if_neg (by exact fun hx => hr ⟨hx.1, hx.2⟩)] at h

theorem mem_stripL (l : List Char) (ch : Char) (h : ch ∈ stripL l) :
    ch ∈ l := by
  unfold stripL at h
  rw [List.mem_reverse] at h
  have h1 := (List.dropWhile_suffix Char.isWhitespace).subset h
  rw [List.mem_reverse] at h1
  exact (List.dropWhile_suffix Char.isWhitespace).subset h1

/-- Every suffix of `a ++ b` is a nonempty suffix of `a` glued to `b`, or
a suffix of `b`. -/
theorem suffix_append_cases {α} (l' a b : List α) (h : l' <:+ a ++ b) :
    (∃ a', a' <:+ a ∧ a' ≠ [] ∧ l' = a' ++ b) ∨ l' <:+ b := by
  induction a with
  | nil => right; simpa using h
  | cons x t ih =>
    rw [List.cons_append] at h
    rcases List.suffix_cons_iff.mp h with h | h
    · left
      exact ⟨x :: t, List.suffix_refl _, by simp, by rw [h, List.cons_append]⟩
    · rcases ih h with ⟨a', ha1, ha2, ha3⟩ | h
      · left
        exact ⟨a', ha1.trans ⟨[x], rfl⟩, ha2, ha3⟩
      · right
        exact h

theorem matchA2_none (l' : List Char) (h : ∀ ch ∈ l', ch ≠ '<') :
    matchA2 l' = none := by
  unfold matchA2
  cases l' with
  | nil => rfl
  | cons x t =>
    rw [show ("<!--".data : List Char) = '<' :: "!--".data from rfl]
    rw [headPrefix_false_cons '<' _ x t (h x (List.mem_cons_self x t))]
    rfl

theorem matchA3_none (l' : List Char)
    (h : ∀ ch ∈ l', ch ≠ '/' ∧ ch ≠ '#') : matchA3 l' = none := by
  unfold matchA3 markerChop
  cases l' with
  | nil => rfl
  | cons x t =>
    have hx := h x (List.mem_cons_self x t)
    rw [show ("//".data : List Char) = '/' :: "/".data from rfl,
      headPrefix_false_cons '/' _ x t hx.1,
      show ("#".data : List Char) = '#' :: "".data from rfl,
      headPrefix_false_cons '#' _ x t hx.2,
      show ("/*".data : List Char) = '/' :: "*".data from rfl,
      headPrefix_false_cons '/' _ x t hx.1]
    rfl

theorem matchA4_none (l' : List Char) (h : ∀ ch ∈ l', ch ≠ '#') :
    matchA4 l' = none := by
  unfold matchA4
  cases l' with
  | nil => rfl
  | cons x t =>
    have hx : ¬(x = '#') := h x (List.mem_cons_self x t)
    rw [List.takeWhile_cons]
    rw [decide_eq_false hx]
    rfl

theorem matchA1_none_head (x : Char) (t : List Char) (hx : x ≠ '`') :
    matchA1 (x :: t) = none := by
  unfold matchA1
  rw [show ticksPre (x :: t) = false from ticksPre_false_cons x t hx]
  rfl

/-- `matchA1` fails on the fence-only suffixes that do start with a
backtick. -/
theorem matchA1_two_ticks (t : List Char) :
    matchA1 ('`' :: '`' :: 'p' :: t) = none := by
  unfold matchA1
  rw [show ticksPre ('`' :: '`' :: 'p' :: t) = false from rfl]
  rfl

theorem matchA1_one_tick (t : List Char) :
    matchA1 ('`' :: 'p' :: t) = none := by
  unfold matchA1
  rw [show ticksPre ('`' :: 'p' :: t) = false from rfl]
  rfl

theorem takeWhile_word_prolog (X : List Char) :
    List.takeWhile isWordChar ("prolog".data ++ '\n' :: X) = "prolog".data :=
  takeWhile_all_append isWordChar "prolog".data X '\n' (by decide) (by decide)

theorem matchA1_full (X : List Char) :
    matchA1 ('`' :: '`' :: '`' :: ("prolog".data ++ '\n' :: X)) = none := by
  unfold matchA1
  rw [show ticksPre ('`' :: '`' :: '`' :: ("prolog".data ++ '\n' :: X))
    = true from rfl]
  simp only [if_true, List.drop_succ_cons, List.drop_zero]
  rw [takeWhile_word_prolog]
  rw [show ("prolog".data : List Char).isEmpty = false from rfl]
  simp only [Bool.false_eq_true, if_false]
  rw [show ("prolog".data : List Char).length = "prolog".data.length from rfl,
    List.drop_left]
  rfl

/-- Characters of the prolog-block response text: the fence scaffolding
plus the body `c`. -/
theorem prologText_mem (c : List Char) (ch : Char)
    (h : ch ∈ (prologText c).data) :
    ch ∈ ("```prolog\n".data : List Char) ∨ ch ∈ c ∨
      ch ∈ ("\n```".data : List Char) := by
  rcases List.mem_append.mp h with h | h
  · exact Or.inl h
  · rcases List.mem_append.mp h with h | h
    · exact Or.inr (Or.inl h)
    · exact Or.inr (Or.inr h)

/-- `matchA1` fails at every position of the prolog-block text: the only
backtick runs are the two fences, and neither is followed by
`word:name`. -/
theorem matchA1_prologText_none (c : List Char)
    (hc : ∀ ch ∈ c, ch ≠ '`') (l' : List Char)
    (h : l' <:+ (prologText c).data) : matchA1 l' = none := by
  have hpost : ∀ l₂ : List Char, l₂ <:+ ("\n```".data : List Char) →
      matchA1 l₂ = none := by
    intro l₂ hl₂
    have : l₂ ∈ (("\n```".data : List Char)).tails :=
      (List.mem_tails _ _).mpr hl₂
    simp [List.tails] at this
    rcases this with rfl | rfl | rfl | rfl | rfl <;> decide
  have hcpost : ∀ l₂ : List Char, l₂ <:+ (c ++ "\n```".data : List Char) →
      matchA1 l₂ = none := by
    intro l₂ hl₂
    rcases suffix_append_cases l₂ c "\n```".data hl₂ with
      ⟨a', ha1, ha2, rfl⟩ | h2
    · cases a' with
      | nil => exact absurd rfl ha2
      | cons x t =>
        exact matchA1_none_head x _ (hc x (ha1.subset (List.mem_cons_self x t)))
    · exact hpost l₂ h2
  rcases suffix_append_cases l' "```prolog\n".data (c ++ "\n```".data) h with
    ⟨a', ha1, ha2, rfl⟩ | h2
  · -- nonempty suffix of the opening fence line, glued to the rest
    have : a' ∈ (("```prolog\n".data : List Char)).tails :=
      (List.mem_tails _ _).mpr ha1
    simp [List.tails] at this
    rcases this with rfl | rfl | rfl | rfl | rfl | rfl | rfl | rfl | rfl |
      rfl | rfl
    · exact matchA1_full (c ++ "\n```".data)
    · exact matchA1_two_ticks _
    · exact matchA1_one_tick _
    · exact matchA1_none_head 'p' _ (by decide)
    · exact matchA1_none_head 'r' _ (by decide)
    · exact matchA1_none_head 'o' _ (by decide)
    · exact matchA1_none_head 'l' _ (by decide)
    · exact matchA1_none_head 'o' _ (by decide)
    · exact matchA1_none_head 'g' _ (by decide)
    · exact matchA1_none_head '\n' _ (by decide)
    · exact absurd rfl ha2
  · exact hcpost l' h2

/-- The content hypothesis of the amended C4 claim. -/
def CleanBody (c : List Char) : Prop :=
  ∀ ch ∈ c, ch ≠ '`' ∧ ch ≠ '#' ∧ ch ≠ '/' ∧ ch ≠ '<'

theorem prologText_no_marks (c : List Char) (hc : CleanBody c) :
    ∀ ch ∈ (prologText c).data, ch ≠ '<' ∧ ch ≠ '/' ∧ ch ≠ '#' := by
  have hpre : ∀ ch ∈ ("```prolog\n".data : List Char),
      ch ≠ '<' ∧ ch ≠ '/' ∧ ch ≠ '#' := by decide
  have hpost : ∀ ch ∈ ("\n```".data : List Char),
      ch ≠ '<' ∧ ch ≠ '/' ∧ ch ≠ '#' := by decide
  intro ch h
  rcases prologText_mem c ch h with h | h | h
  · exact hpre ch h
  · exact ⟨(hc ch h).2.2.2, (hc ch h).2.2.1, (hc ch h).2.1⟩
  · exact hpost ch h

/-- None of the four filename conventions matches anywhere in the
prolog-block text. -/
theorem rawHints_prolog_empty (c : List Char) (hc : CleanBody c) :
    rawHints (prologText c) = [] := by
  have hnox := prologText_no_marks c hc
  unfold rawHints
  rw [scanAll_eq_nil matchA1 _ (matchA1_prologText_none c
    (fun ch h => (hc ch h).1))]
  rw [scanAll_eq_nil matchA2 _ (fun l' hl' =>
    matchA2_none l' (fun ch hch => (hnox ch (hl'.subset hch)).1))]
  rw [scanAll_eq_nil matchA3 _ (fun l' hl' =>
    matchA3_none l' (fun ch hch =>
      ⟨(hnox ch (hl'.subset hch)).2.1, (hnox ch (hl'.subset hch)).2.2⟩))]
  rw [scanAll_eq_nil matchA4 _ (fun l' hl' =>
    matchA4_none l' (fun ch hch => (hnox ch (hl'.subset hch)).2.2))]
  rfl

theorem matchFenceNL_prolog (c : List Char) (hc : ∀ ch ∈ c, ch ≠ '`') :
    matchFenceNL (prologText c).data =
      some (("prolog", ⟨c ++ ['\n']⟩), []) := by
  unfold matchFenceNL
  rw [show ticksPre (prologText c).data = true from rfl]
  simp only [if_true]
  rw [show ((prologText c).data.drop 3 : List Char)
    = "prolog".data ++ '\n' :: (c ++ "\n```".data) from rfl]
  unfold langAndNL
  rw [takeWhile_word_prolog]
  dsimp only
  rw [List.drop_left]
  show (match findClose (c ++ "\n```".data) with
    | some (code, rest') =>
      some (((⟨"prolog".data⟩ : String), (⟨code⟩ : String)), rest')
    | none => none) = some (("prolog", ⟨c ++ ['\n']⟩), [])
  rw [show (c ++ "\n```".data : List Char)
    = (c ++ ['\n']) ++ ['`', '`', '`'] from by simp]
  rw [findClose_append_close (c ++ ['\n']) (by
    intro ch hch
    rcases List.mem_append.mp hch with h | h
    · exact hc ch h
    · simp at h
      subst h
      decide)]

theorem whitespace_ne_tick (ch : Char) (h : ch.isWhitespace = true) :
    ch ≠ '`' := by
  intro he
  subst he
  exact absurd h (by decide)

theorem matchFence1_prolog (c : List Char) (hc : ∀ ch ∈ c, ch ≠ '`') :
    ∃ code : String,
      matchFence1 (prologText c).data = some (("prolog", code), []) ∧
        ∀ ch ∈ code.data, ch ∈ c ∨ ch.isWhitespace = true := by
  unfold matchFence1
  rw [show ticksPre (prologText c).data = true from rfl]
  simp only [if_true]
  rw [show ((prologText c).data.drop 3 : List Char)
    = "prolog".data ++ '\n' :: (c ++ "\n```".data) from rfl]
  rw [takeWhile_word_prolog, List.drop_left]
  have hws : ('\n' :: (c ++ "\n```".data)).takeWhile Char.isWhitespace
      = '\n' :: (c ++ "\n```".data).takeWhile Char.isWhitespace := by
    rw [List.takeWhile_cons]
    simp
  rw [hws]
  cases hsp : splitLastNL
      ('\n' :: (c ++ "\n```".data).takeWhile Char.isWhitespace) with
  | none =>
    exfalso
    exact (splitLastNL_spec _).1 hsp (List.mem_cons_self _ _)
  | some p =>
    obtain ⟨pre, suf⟩ := p
    obtain ⟨hsplit, hnosuf⟩ := (splitLastNL_spec _).2 pre suf hsp
    have hsufws : ∀ ch ∈ suf, ch.isWhitespace = true := by
      intro ch hch
      have : ch ∈ ('\n' :: (c ++ "\n```".data).takeWhile Char.isWhitespace) :=
        hsplit ▸ List.mem_append.mpr (Or.inr hch)
      rcases List.mem_cons.mp this with h | h
      · subst h
        decide
      · exact List.mem_takeWhile_imp h
    have hdw : ('\n' :: (c ++ "\n```".data)).dropWhile Char.isWhitespace
        = (c ++ "\n```".data).dropWhile Char.isWhitespace := by
      rw [List.dropWhile_cons]
      simp
    dsimp only
    rw [hdw, List.dropWhile_append]
    by_cases hdwc : ((c.dropWhile Char.isWhitespace).isEmpty) = true
    · rw [if_pos hdwc]
      rw [show (("\n```".data : List Char).dropWhile Char.isWhitespace)
        = ['`', '`', '`'] from rfl]
      rw [findClose_append_close suf
        (fun ch hch => whitespace_ne_tick ch (hsufws ch hch))]
      exact ⟨⟨suf⟩, rfl, fun ch hch => Or.inr (hsufws ch hch)⟩
    · rw [if_neg hdwc]
      have hassoc : suf ++ (c.dropWhile Char.isWhitespace ++ "\n```".data)
          = (suf ++ (c.dropWhile Char.isWhitespace ++ ['\n']))
            ++ ['`', '`', '`'] := by
        simp
      rw [hassoc]
      rw [findClose_append_close _ (by
        intro ch hch
        rcases List.mem_append.mp hch with h | h
        · exact whitespace_ne_tick ch (hsufws ch h)
        · rcases List.mem_append.mp h with h | h
          · exact hc ch ((List.dropWhile_suffix Char.isWhitespace).subset h)
          · simp at h
            subst h
            decide)]
      refine ⟨⟨suf ++ (c.dropWhile Char.isWhitespace ++ ['\n'])⟩, rfl, ?_⟩
      intro ch hch
      rcases List.mem_append.mp hch with h | h
      · exact Or.inr (hsufws ch h)
      · rcases List.mem_append.mp h with h | h
        · exact Or.inl ((List.dropWhile_suffix Char.isWhitespace).subset h)
        · simp at h
          subst h
          exact Or.inr (by decide)

theorem prologText_data_cons (c : List Char) :
    (prologText c).data =
      '`' :: ('`' :: ('`' :: ("prolog\n".data ++ (c ++ "\n```".data)))) := rfl

theorem scanFence1_prolog (c : List Char) (hc : ∀ ch ∈ c, ch ≠ '`') :
    ∃ code : String,
      scanAll matchFence1 (prologText c).data = [("prolog", code)] ∧
        ∀ ch ∈ code.data, ch ∈ c ∨ ch.isWhitespace = true := by
  obtain ⟨code, hm, hcode⟩ := matchFence1_prolog c hc
  exact ⟨code, scanAll_single matchFence1 _ _ '`' _ (prologText_data_cons c) hm,
    hcode⟩

theorem scanFenceNL_prolog (c : List Char) (hc : ∀ ch ∈ c, ch ≠ '`') :
    scanAll matchFenceNL (prologText c).data =
      [("prolog", ⟨c ++ ['\n']⟩)] :=
  scanAll_single matchFenceNL _ _ '`' _ (prologText_data_cons c)
    (matchFenceNL_prolog c hc)

/-- No `<html`/`<!DOCTYPE` sniffing succeeds on a string without `<`. -/
theorem no_html_marks (s : String) (hs : '<' ∉ s.data) :
    sContains (lowerS s) "<html" = false ∧
      sContains s "<!DOCTYPE" = false := by
  constructor
  · apply listContains_false
    intro hmem
    rcases List.mem_map.mp hmem with ⟨ch, hch, hlow⟩
    apply hs
    rw [← toLower_eq_lt hlow]
    exact hch
  · exact listContains_false _ _ _ hs

theorem strip_no_lt (c : List Char) (hc : CleanBody c) (code : String)
    (hcode : ∀ ch ∈ code.data, ch ∈ c ∨ ch.isWhitespace = true) :
    '<' ∉ (stripS code).data := by
  intro h
  have h1 := mem_stripL code.data '<' h
  rcases hcode '<' h1 with h2 | h2
  · exact (hc '<' h2).2.2.2 rfl
  · exact absurd h2 (by decide)

/-- The single prolog-tagged block is dropped by the categorization loop,
so `_extract_code` finds nothing. -/
theorem extractCode_prolog (c : List Char) (hc : CleanBody c) :
    extractCode (prologText c) = none := by
  obtain ⟨code, hscan, hcode⟩ := scanFence1_prolog c (fun ch h => (hc ch h).1)
  have hmarks := no_html_marks (stripS code)
    (strip_no_lt c hc code hcode)
  have hcat : categorize [("prolog", code)] = ⟨[], [], [], [], []⟩ := by
    unfold categorize
    rw [List.foldl_cons, List.foldl_nil]
    unfold catStep
    dsimp only
    by_cases h0 : stripS code = ""
    · rw [if_pos h0]
    · rw [if_neg h0]
      rw [if_neg (by
        push_neg
        refine ⟨by decide, by decide, ?_, ?_⟩
        · simp [hmarks.1]
        · simp [hmarks.2])]
      rw [if_neg (by decide), if_neg (by decide), if_neg (by decide),
        if_neg (by decide)]
  unfold extractCode
  rw [if_neg (by
    intro he
    have := congrArg String.data he
    rw [prologText_data_cons] at this
    exact List.noConfusion this)]
  dsimp only
  rw [hscan]
  simp only [List.isEmpty_cons, Bool.false_eq_true, if_false]
  rw [hcat]
  rfl

/-- The inference fallback also drops the prolog block. -/
theorem inferFiles_prolog (c : List Char) (hc : CleanBody c) :
    inferFilesFromBlocks (prologText c) = [] := by
  unfold inferFilesFromBlocks
  rw [scanFenceNL_prolog c (fun ch h => (hc ch h).1)]
  have hbody : ∀ ch ∈ ((⟨c ++ ['\n']⟩ : String)).data,
      ch ∈ c ∨ ch.isWhitespace = true := by
    intro ch h
    rcases List.mem_append.mp h with h | h
    · exact Or.inl h
    · simp at h
      subst h
      exact Or.inr (by decide)
  have hmarks := no_html_marks (stripS ⟨c ++ ['\n']⟩)
    (strip_no_lt c hc _ hbody)
  have hassign : inferAssigns (0, 0, 0) [("prolog", ⟨c ++ ['\n']⟩)] = [] := by
    unfold inferAssigns
    dsimp only
    rw [if_neg (by
      push_neg
      refine ⟨by decide, by decide, ?_, ?_⟩
      · simp [hmarks.1]
      · simp [hmarks.2])]
    rw [if_neg (by decide), if_neg (by decide), if_neg (by decide),
      if_neg (by decide)]
    rfl
  rw [hassign]
  rfl

theorem extractFiles_prolog (c : List Char) (hc : CleanBody c) :
    extractFilesFromResponse (prologText c) = [] := by
  unfold extractFilesFromResponse
  dsimp only
  rw [rawHints_prolog_empty c hc]
  simp only [List.foldl_nil, List.isEmpty_nil, if_true]
  exact inferFiles_prolog c hc

/-- C4 amended: a response that is exactly one fenced code block tagged
`prolog` (body free of backticks and of the marker characters `#`, `/`,
`<`) produces a zero-score Evaluation whose reasoning is the
no-code-block diagnostic — the tagged block is silently dropped by
`_extract_code`, so the "Unsupported language: prolog" branch is never
reached. -/
theorem unsupported_prolog_c4_amended (c : List Char) (hc : CleanBody c)
    (ox : ExecOracle) (q : Question) :
    (evaluateE ox q ⟨"m", prologText c, none⟩).reasoning =
      "No code block found in response. Response contains ``` but code extraction failed. Check formatting." ∧
    (evaluateE ox q ⟨"m", prologText c, none⟩).score = 0 := by
  have hne : ¬(prologText c = "") := by
    intro he
    have := congrArg String.data he
    rw [prologText_data_cons] at this
    exact List.noConfusion this
  have hfence : sContains (prologText c) "```" = true := by
    rw [sContains, prologText_data_cons]
    rw [listContains]
    rw [show ("```".data : List Char).isPrefixOf
      ('`' :: ('`' :: ('`' :: ("prolog\n".data ++ (c ++ "\n```".data)))))
      = true from rfl]
    rfl
  have hart : extractMultiFileArtifact (prologText c) = none := by
    unfold extractMultiFileArtifact
    rw [extractFiles_prolog c hc]
    rfl
  unfold evaluateE
  rw [show optTruthy (none : Option String) = false from rfl]
  simp only [Bool.false_eq_true, if_false]
  rw [if_neg hne]
  dsimp only
  rw [hart]
  dsimp only
  rw [extractCode_prolog c hc]
  dsimp only
  rw [if_neg hne, if_pos hfence]
  exact ⟨rfl, rfl⟩

def prologResponse : ModelResponse :=
  { model_name := "m", response_text := "```prolog\nlikes(mary).\n```",
    error := none }

/-- C4 counterexample: for a response with a single `prolog`-tagged
fenced block, the Evaluation's reasoning is the no-code-block diagnostic,
not "Unsupported language: prolog" (the score is 0 as claimed). -/
theorem unsupported_prolog_c4_cex :
    (evaluateE oracle0 demoQuestion prologResponse).reasoning ≠
        "Unsupported language: prolog" ∧
      (evaluateE oracle0 demoQuestion prologResponse).reasoning =
        "No code block found in response. Response contains ``` but code extraction failed. Check formatting." ∧
      (evaluateE oracle0 demoQuestion prologResponse).score = 0 := by
  refine ⟨by decide, by decide, by decide⟩

/-- Witness for the amended C4 theorem at a concrete body. -/
theorem unsupported_prolog_c4_witness :
    (evaluateE oracle0 demoQuestion
        ⟨"m", prologText "likes(mary).".data, none⟩).reasoning =
      "No code block found in response. Response contains ``` but code extraction failed. Check formatting." ∧
    (evaluateE oracle0 demoQuestion
        ⟨"m", prologText "likes(mary).".data, none⟩).score = 0 :=
  unsupported_prolog_c4_amended "likes(mary).".data
    (by unfold CleanBody; decide) oracle0 demoQuestion

end LLMTools
